import Mathlib

/-!
# redis-tikv-example: key codec, prefix locator and command handlers

A shallow embedding of `key.go`, `string.go` and `hash.go`.

* A byte is a natural number (a Go `byte` is one below 256); a byte string is a
  list of them.  No operation of the program does arithmetic on bytes, it only
  copies and compares them.
* The storage backend of the program (`kv.Storage`, `kv.Transaction`,
  `kv.Iterator`) is an external library.  It is embedded as the ordered
  key-value map its contract describes: a list of entries in strictly
  increasing key order, `Seek` positioning at the first entry whose key is not
  below the sought key.
* The tag bytes `String`, `HashMeta`, `HashField` and the status `OK` are
  declared outside the four source files; the tags are a parameter (`Tags`).
-/

namespace RedisTikv

/-- Byte strings (`[]byte`). -/
abbrev Bytes := List Nat

/-! ## Byte order and byte prefixes -/

/-- Lexicographic order of byte strings, `bytes.Compare(a, b) < 0`. -/
def bytesLt : Bytes → Bytes → Bool
  | _, [] => false
  | [], _ :: _ => true
  | a :: as, b :: bs => decide (a < b) || (a == b && bytesLt as bs)

/-- Byte-prefix test `k.HasPrefix(pfx)`, that is `bytes.HasPrefix(k, pfx)`. -/
def HasPrefix : Bytes → Bytes → Bool
  | _, [] => true
  | [], _ :: _ => false
  | a :: as, b :: bs => a == b && HasPrefix as bs

/-! ## The byte codec (`key.go`) -/

/-- Group size of the escaped format, the constant `rdbEscapeLength`. -/
def rdbEscapeLength : Nat := 9

/-- Length of the escaped form, `rdbEncodedSize`. -/
def rdbEncodedSize (len : Nat) : Nat :=
  (1 + ((len + (rdbEscapeLength - 2)) / (rdbEscapeLength - 1))) * rdbEscapeLength

/-- Nine zero bytes, the variable `paddingZeros`. -/
def paddingZeros : Bytes := List.replicate 9 0

/-- The loop of `EncodeBytes`: one iteration per unit of fuel. -/
def encodeLoop : Nat → Bytes → Bytes → Bytes
  | 0, buffer, _ => buffer
  | fuel + 1, buffer, src =>
    let srcLen := src.length
    let copyLen := if rdbEscapeLength - 1 < srcLen then rdbEscapeLength - 1 else srcLen
    let buffer := buffer ++ src.take copyLen
    let src := src.drop copyLen
    if src.length = 0 then
      let paddingBytes := rdbEscapeLength - 1 - copyLen
      let buffer := if paddingBytes > 0 then buffer ++ paddingZeros.take paddingBytes else buffer
      buffer ++ [copyLen]
    else
      encodeLoop fuel (buffer ++ [rdbEscapeLength]) src

/-- The function `EncodeBytes`: appends the escaped form of `src` to `buffer`
(`ensureCapacity` only reserves room, it does not change the bytes).  Every
iteration but the last consumes eight bytes of `src`, so `src.length + 1`
iterations are more than the loop takes. -/
def EncodeBytes (buffer src : Bytes) : Bytes :=
  encodeLoop (src.length + 1) buffer src

/-- Errors of the program. -/
inductive Err
  /-- The message "insufficient bytes to decode value". -/
  | insufficientBytes
  /-- The message "invalid flag byte, group bytes ...". -/
  | invalidFlag (groupBytes : Bytes)
  /-- The message "invalid padding byte, group bytes ...". -/
  | invalidPadding (groupBytes : Bytes)
  /-- The variable `errCorruptedData`. -/
  | corruptedData
  /-- The message "invalid type, need ..., but got ...". -/
  | invalidType (need got : Nat)
  /-- The error `kv.ErrNotExist` of the storage backend. -/
  | notExist
  /-- An error of `strconv.ParseInt`. -/
  | parseInt
  /-- Any other failure of the storage backend. -/
  | storage (code : Nat)
  /-- A run-time panic: index out of range. -/
  | indexOutOfRange
  /-- The message "... is not supported". -/
  | notSupported (cmd : Bytes)
  deriving DecidableEq, Repr

deriving instance DecidableEq for Except

/-- The loop of `DecodeBytes`: one iteration per unit of fuel.  The result is
the pair of the left buffer and the decoded slice. -/
def decodeLoop : Nat → Bytes → Bytes → Except Err (Bytes × Bytes)
  | 0, _, _ => .error .insufficientBytes
  | fuel + 1, data, src =>
    if src.length < rdbEscapeLength then .error .insufficientBytes
    else
      let groupBytes := src.take rdbEscapeLength
      let group := groupBytes.take (rdbEscapeLength - 1)
      let realGroupSize := groupBytes.getD (rdbEscapeLength - 1) 0
      if realGroupSize > rdbEscapeLength then .error (.invalidFlag groupBytes)
      else
        let src := src.drop rdbEscapeLength
        if realGroupSize < rdbEscapeLength then
          if (group.drop realGroupSize).any (fun v => v != 0) then
            .error (.invalidPadding groupBytes)
          else .ok (src, data ++ group.take realGroupSize)
        else decodeLoop fuel (data ++ group.take (rdbEscapeLength - 1)) src

/-- The function `DecodeBytes`.  Every iteration consumes nine bytes, so
`src.length + 1` iterations are more than the loop takes. -/
def DecodeBytes (src : Bytes) : Except Err (Bytes × Bytes) :=
  decodeLoop (src.length + 1) [] src

/-! ## The key schema (`key.go`) -/

/-- The tag bytes `String`, `HashMeta` and `HashField`. -/
structure Tags where
  String : Nat
  HashMeta : Nat
  HashField : Nat
  deriving DecidableEq, Repr

/-- The function `GetKeyType`: the last byte of the key; `none` is the
index-out-of-range panic on an empty key. -/
def GetKeyType (key : Bytes) : Option Nat := key.getLast?

/-- The function `EncodeStringKey`. -/
def EncodeStringKey (tg : Tags) (buf key : Bytes) : Bytes :=
  let key := EncodeBytes buf key
  let buf := buf ++ key
  let buf := buf ++ [tg.String]
  buf

/-- The function `EncodeHashMetaKey`. -/
def EncodeHashMetaKey (tg : Tags) (buf key : Bytes) : Bytes :=
  let key := EncodeBytes buf key
  let buf := buf ++ key
  let buf := buf ++ [tg.HashMeta]
  buf

/-- The function `EncodeHashField`. -/
def EncodeHashField (tg : Tags) (buf key field : Bytes) : Bytes :=
  let key := EncodeBytes buf key
  let buf := buf ++ key
  let buf := buf ++ [tg.HashField]
  let field := EncodeBytes buf field
  let buf := buf ++ field
  buf

/-! ## The storage backend -/

/-- A stored key with its value. -/
abbrev Entry := Bytes × Bytes

/-- The key space of the backend: entries in strictly increasing key order. -/
abbrev Store := List Entry

/-- Strictly increasing key order. -/
def Store.sorted : Store → Bool
  | [] => true
  | [_] => true
  | e₁ :: e₂ :: s => bytesLt e₁.1 e₂.1 && Store.sorted (e₂ :: s)

/-- Point read: the value stored under `k`, `none` when `k` is not stored. -/
def Store.get : Store → Bytes → Option Bytes
  | [], _ => none
  | e :: s, k => if e.1 = k then some e.2 else Store.get s k

/-- Write of `k`, replacing the value of a stored `k` and keeping key order. -/
def Store.set : Store → Bytes → Bytes → Store
  | [], k, v => [(k, v)]
  | e :: s, k, v =>
    if bytesLt e.1 k then e :: Store.set s k v
    else if e.1 = k then (k, v) :: s
    else (k, v) :: e :: s

/-- Removal of `k`. -/
def Store.delete (s : Store) (k : Bytes) : Store :=
  s.filter (fun e => decide (e.1 ≠ k))

/-- The entries from the first key that is not below `x` on, in key order. -/
def Store.seek (s : Store) (x : Bytes) : List Entry :=
  s.dropWhile (fun e => bytesLt e.1 x)

/-- An iterator of the backend: the entries it has yet to visit, the current
one first.  It is valid while there is one. -/
structure Iterator where
  entries : List Entry
  deriving DecidableEq, Repr

/-- The method `Valid`. -/
def Iterator.Valid (it : Iterator) : Bool := !it.entries.isEmpty

/-- The method `Key`: the current key, nil on an iterator that is not valid. -/
def Iterator.Key (it : Iterator) : Bytes :=
  match it.entries with
  | [] => []
  | e :: _ => e.1

/-- The method `Value`: the current value, nil on an iterator that is not valid. -/
def Iterator.Value (it : Iterator) : Bytes :=
  match it.entries with
  | [] => []
  | e :: _ => e.2

/-- The method `Next` when it succeeds. -/
def Iterator.Next (it : Iterator) : Iterator := ⟨it.entries.tail⟩

/-- The failures the backend injects: for each kind of storage operation the
error it returns, `none` when operations of that kind succeed. -/
structure Faults where
  beginErr : Option Err
  seekErr : Option Err
  nextErr : Option Err
  getErr : Option Err
  setErr : Option Err
  deleteErr : Option Err
  commitErr : Option Err
  deriving DecidableEq, Repr

/-- Every storage operation succeeds. -/
def noFaults : Faults := ⟨none, none, none, none, none, none, none⟩

/-- The method `Transaction.Seek`. -/
def txnSeek (fl : Faults) (txn : Store) (k : Bytes) : Except Err Iterator :=
  match fl.seekErr with
  | some e => .error e
  | none => .ok ⟨txn.seek k⟩

/-- The method `Transaction.Get`: the value (not nil) of a stored key, or nil
with `kv.ErrNotExist` for a key that is not stored. -/
def txnGet (fl : Faults) (txn : Store) (k : Bytes) : Except Err Bytes :=
  match fl.getErr with
  | some e => .error e
  | none =>
    match txn.get k with
    | some v => .ok v
    | none => .error .notExist

/-- The method `Transaction.Set`. -/
def txnSet (fl : Faults) (txn : Store) (k v : Bytes) : Except Err Store :=
  match fl.setErr with
  | some e => .error e
  | none => .ok (txn.set k v)

/-- The method `Transaction.Delete`. -/
def txnDelete (fl : Faults) (txn : Store) (k : Bytes) : Except Err Store :=
  match fl.deleteErr with
  | some e => .error e
  | none => .ok (txn.delete k)

/-! ## The prefix locator (`key.go`) -/

/-- The function `SeekPrefix`; `none` is the nil iterator. -/
def SeekPrefix (fl : Faults) (txn : Store) (key : Bytes) : Except Err (Option Iterator) :=
  let seekKey := EncodeBytes [] key
  match txnSeek fl txn seekKey with
  | .error err => .error err
  | .ok it =>
    if !it.Valid then .ok none
    else if !HasPrefix it.Key key then .ok none
    else .ok (some it)

/-! ## Replies and decimal text -/

/-- The reply of a handler (`interface{}`). -/
inductive Reply
  /-- The nil reply. -/
  | nil
  /-- The status `OK`. -/
  | OK
  /-- A byte string. -/
  | bulk (b : Bytes)
  /-- An `int64`. -/
  | int (i : Int)
  deriving DecidableEq, Repr

/-- Decimal digits of `n`, most significant first, in front of `acc`. -/
def formatDigits : Nat → Nat → Bytes → Bytes
  | 0, _, acc => acc
  | fuel + 1, n, acc =>
    let acc := (48 + n % 10) :: acc
    if n / 10 = 0 then acc else formatDigits fuel (n / 10) acc

/-- The function `strconv.FormatInt(i, 10)`. -/
def FormatInt (i : Int) : Bytes :=
  if i < 0 then 45 :: formatDigits (i.natAbs + 1) i.natAbs []
  else formatDigits (i.natAbs + 1) i.natAbs []

/-- Value of a non-empty string of decimal digits read after `acc`. -/
def parseDigits : Bytes → Nat → Option Nat
  | [], acc => some acc
  | c :: cs, acc => if 48 ≤ c ∧ c ≤ 57 then parseDigits cs (acc * 10 + (c - 48)) else none

/-- The function `strconv.ParseInt(s, 10, 64)`: an optional sign and at least
one decimal digit, within the range of `int64`. -/
def ParseInt (s : Bytes) : Except Err Int :=
  match s with
  | [] => .error .parseInt
  | c :: rest =>
    let neg := decide (c = 45)
    let ds := if c = 43 ∨ c = 45 then rest else s
    match ds with
    | [] => .error .parseInt
    | _ :: _ =>
      match parseDigits ds 0 with
      | none => .error .parseInt
      | some un =>
        if !neg && decide (un ≥ 2 ^ 63) then .error .parseInt
        else if neg && decide (un > 2 ^ 63) then .error .parseInt
        else .ok (if neg then -(un : Int) else (un : Int))

/-- Conversion to `int64`: the value modulo `2 ^ 64` in the signed range. -/
def wrapInt64 (i : Int) : Int := (i + 2 ^ 63) % 2 ^ 64 - 2 ^ 63

/-! ## The command handlers (`string.go`, `hash.go`, `key.go`)

A handler takes the committed store and returns its result with the store
afterwards: the transaction's writes when `Commit` succeeded, the store it
started from on every other path (`defer txn.Rollback()`). -/

/-- The function `HandleSet`. -/
def HandleSet (tg : Tags) (fl : Faults) (db : Store) (key value : Bytes) :
    Except Err Reply × Store :=
  match fl.beginErr with
  | some err => (.error err, db)
  | none =>
    let txn := db
    match SeekPrefix fl txn key with
    | .error err => (.error err, db)
    | .ok it =>
      let check : Except Err Unit :=
        match it with
        | none => .ok ()
        | some it =>
          match GetKeyType it.Key with
          | none => .error .indexOutOfRange
          | some tp => if tp ≠ tg.String then .error (.invalidType tg.String tp) else .ok ()
      match check with
      | .error err => (.error err, db)
      | .ok () =>
        match txnSet fl txn (EncodeStringKey tg [] key) value with
        | .error err => (.error err, db)
        | .ok txn =>
          match fl.commitErr with
          | some err => (.error err, db)
          | none => (.ok .OK, txn)

/-- The function `HandleGet`. -/
def HandleGet (tg : Tags) (fl : Faults) (db : Store) (key : Bytes) :
    Except Err Reply × Store :=
  match fl.beginErr with
  | some err => (.error err, db)
  | none =>
    let txn := db
    match SeekPrefix fl txn key with
    | .error err => (.error err, db)
    | .ok none => (.ok .nil, db)
    | .ok (some it) =>
      match GetKeyType it.Key with
      | none => (.error .indexOutOfRange, db)
      | some tp =>
        if tp ≠ tg.String then (.error (.invalidType tg.String tp), db)
        else
          let value := it.Value
          match fl.commitErr with
          | some _ => (.ok .nil, db)
          | none => (.ok (.bulk value), txn)

/-- The first loop of `HandleDelete`: the keys under the iterator that have
the given byte-prefix, up to the first key that has not. -/
def collectKeys (fl : Faults) (prefixKey : Bytes) : List Entry → List Bytes → Except Err (List Bytes)
  | [], keys => .ok keys
  | e :: rest, keys =>
    if HasPrefix e.1 prefixKey then
      match fl.nextErr with
      | some err => .error err
      | none => collectKeys fl prefixKey rest (keys ++ [e.1])
    else .ok keys

/-- The second loop of `HandleDelete`: deletes the keys, `hasKey` turning 1. -/
def deleteKeys (fl : Faults) : List Bytes → Store → Int → Except Err (Store × Int)
  | [], txn, hasKey => .ok (txn, hasKey)
  | key :: keys, txn, _ =>
    match txnDelete fl txn key with
    | .error err => .error err
    | .ok txn => deleteKeys fl keys txn 1

/-- The function `HandleDelete`. -/
def HandleDelete (fl : Faults) (db : Store) (key : Bytes) : Except Err Reply × Store :=
  match fl.beginErr with
  | some err => (.error err, db)
  | none =>
    let txn := db
    let prefixKey := EncodeBytes [] key
    match txnSeek fl txn prefixKey with
    | .error err => (.error err, db)
    | .ok it =>
      match collectKeys fl prefixKey it.entries [] with
      | .error err => (.error err, db)
      | .ok keys =>
        match deleteKeys fl keys txn 0 with
        | .error err => (.error err, db)
        | .ok (txn, hasKey) =>
          match fl.commitErr with
          | some err => (.error err, db)
          | none => (.ok (.int hasKey), txn)

/-- The function `HandleHashSet`. -/
def HandleHashSet (tg : Tags) (fl : Faults) (db : Store) (key field value : Bytes) :
    Except Err Reply × Store :=
  match fl.beginErr with
  | some err => (.error err, db)
  | none =>
    let txn := db
    match SeekPrefix fl txn key with
    | .error err => (.error err, db)
    | .ok it =>
      let fieldKey := EncodeHashField tg [] key field
      let metaKey := EncodeHashMetaKey tg [] key
      let count : Except Err Int :=
        match it with
        | none => .ok 1
        | some it =>
          match GetKeyType it.Key with
          | none => .error .indexOutOfRange
          | some tp =>
            if tp ≠ tg.HashMeta then .error (.invalidType tg.String tp)
            else
              match ParseInt it.Value with
              | .error err => .error err
              | .ok num =>
                match txnGet fl txn fieldKey with
                | .error err => if err ≠ .notExist then .error err else .ok (wrapInt64 (num + 1))
                | .ok _ => .ok num
      match count with
      | .error err => (.error err, db)
      | .ok num =>
        match txnSet fl txn metaKey (FormatInt num) with
        | .error err => (.error err, db)
        | .ok txn =>
          match txnSet fl txn fieldKey value with
          | .error err => (.error err, db)
          | .ok txn =>
            match fl.commitErr with
            | some err => (.error err, db)
            | none => (.ok (.int num), txn)

/-- The function `HandleHashGet`. -/
def HandleHashGet (tg : Tags) (fl : Faults) (db : Store) (key field : Bytes) :
    Except Err Reply × Store :=
  match fl.beginErr with
  | some err => (.error err, db)
  | none =>
    let txn := db
    match SeekPrefix fl txn key with
    | .error err => (.error err, db)
    | .ok none => (.ok .nil, db)
    | .ok (some it) =>
      match GetKeyType it.Key with
      | none => (.error .indexOutOfRange, db)
      | some tp =>
        if tp ≠ tg.HashMeta then (.error (.invalidType tg.String tp), db)
        else
          match txnGet fl txn (EncodeHashField tg [] key field) with
          | .error err => (.error err, db)
          | .ok value =>
            match fl.commitErr with
            | some _ => (.ok .nil, db)
            | none => (.ok (.bulk value), txn)

/-! ## A byte-at-a-time description of the escaped format -/

/-- The escaped form of `src` when `j` bytes of the current group are already
written: a full group that has more bytes after it is closed by the flag 9,
the last group is padded with zeros and closed by its number of bytes. -/
def escapeFrom : Nat → Bytes → Bytes
  | j, [] => List.replicate (8 - j) 0 ++ [j]
  | j, x :: xs => if j = 8 then 9 :: x :: escapeFrom 1 xs else x :: escapeFrom (j + 1) xs


/-! ## The decoding the specification describes -/

/-- The reading of `DecodeBytes` in the specification: the buffer is read in
groups of nine bytes; a group whose ninth byte is 9 contributes its eight
content bytes and reading goes on; a group whose ninth byte `c` is below 9
ends the reading with its first `c` bytes, provided the bytes at the
positions `c` to 7 are zero; `none` when fewer than nine bytes remain, when
the ninth byte is above 9, or when a padding byte is not zero.  The result is
the pair of the remaining buffer and the decoded bytes. -/
def decodeBySpec : Bytes → Option (Bytes × Bytes)
  | b0 :: b1 :: b2 :: b3 :: b4 :: b5 :: b6 :: b7 :: c :: rest =>
    if c = 9 then
      match decodeBySpec rest with
      | none => none
      | some (left, data) => some (left, [b0, b1, b2, b3, b4, b5, b6, b7] ++ data)
    else if c > 9 then none
    else if ([b0, b1, b2, b3, b4, b5, b6, b7].drop c).all (fun v => v == 0) then
      some (rest, [b0, b1, b2, b3, b4, b5, b6, b7].take c)
    else none
  | _ => none

/-! ## The integer codec (`key.go`) -/

/-- The constant `signMask`. -/
def signMask : Nat := 0x8000000000000000

/-- The conversion `uint64(i)` of an `int64`. -/
def toUint64 (i : Int) : Nat := (i % 2 ^ 64).toNat

/-- The conversion `int64(u)` of a `uint64`. -/
def toInt64 (u : Nat) : Int := if u < 2 ^ 63 then (u : Int) else (u : Int) - 2 ^ 64

/-- The function `binary.BigEndian.PutUint64`: the eight bytes of `u`, the most
significant first. -/
def PutUint64 (u : Nat) : Bytes :=
  [(u >>> 56) % 256, (u >>> 48) % 256, (u >>> 40) % 256, (u >>> 32) % 256,
   (u >>> 24) % 256, (u >>> 16) % 256, (u >>> 8) % 256, u % 256]

/-- The function `binary.BigEndian.Uint64` on the eight bytes `b`. -/
def Uint64 (b : Bytes) : Nat :=
  b.getD 7 0 ||| (b.getD 6 0 <<< 8) ||| (b.getD 5 0 <<< 16) ||| (b.getD 4 0 <<< 24)
    ||| (b.getD 3 0 <<< 32) ||| (b.getD 2 0 <<< 40) ||| (b.getD 1 0 <<< 48)
    ||| (b.getD 0 0 <<< 56)

/-- The function `EncodeInt64`. -/
def EncodeInt64 (buffer : Bytes) (i : Int) : Bytes :=
  let u := toUint64 i ^^^ signMask
  buffer ++ PutUint64 u

/-- The function `DecodeInt64`: the left buffer and the decoded integer. -/
def DecodeInt64 (src : Bytes) : Except Err (Bytes × Int) :=
  if src.length < 8 then .error .corruptedData
  else
    let u := Uint64 (src.take 8)
    .ok (src.drop 8, toInt64 (u ^^^ signMask))

/-! ## The dispatcher (`main.go`) -/

/-- The function `strings.ToLower` on the bytes of the command name: the
letters A to Z become a to z.  No other character becomes one of the letters
of "set", "get", "del", "hset" or "hget", so the comparison with these names
is the one the program makes. -/
def ToLower (s : Bytes) : Bytes :=
  s.map (fun c => if 65 ≤ c ∧ c ≤ 90 then c + 32 else c)

/-- The function `handleRequest`.  An index expression `args[i]` on a list
with no such element is the index-out-of-range panic. -/
def handleRequest (tg : Tags) (fl : Faults) (db : Store) (cmd : Bytes) (args : List Bytes) :
    Except Err Reply × Store :=
  let name := ToLower cmd
  if name = [115, 101, 116] then
    match args[0]?, args[1]? with
    | some a0, some a1 => HandleSet tg fl db a0 a1
    | _, _ => (.error .indexOutOfRange, db)
  else if name = [103, 101, 116] then
    match args[0]? with
    | some a0 => HandleGet tg fl db a0
    | none => (.error .indexOutOfRange, db)
  else if name = [100, 101, 108] then
    match args[0]? with
    | some a0 => HandleDelete fl db a0
    | none => (.error .indexOutOfRange, db)
  else if name = [104, 115, 101, 116] then
    match args[0]?, args[1]?, args[2]? with
    | some a0, some a1, some a2 => HandleHashSet tg fl db a0 a1 a2
    | _, _, _ => (.error .indexOutOfRange, db)
  else if name = [104, 103, 101, 116] then
    match args[0]?, args[1]? with
    | some a0, some a1 => HandleHashGet tg fl db a0 a1
    | _, _ => (.error .indexOutOfRange, db)
  else (.error (.notSupported cmd), db)

/-- Every storage operation succeeds but `Commit`, which returns `e`. -/
def commitFails (e : Err) : Faults := ⟨none, none, none, none, none, none, some e⟩

/-- The number of arguments `handleRequest` reads for a lower-case command
name: the greatest index it uses, plus one; none for an unsupported name. -/
def neededArgs (name : Bytes) : Nat :=
  if name = [115, 101, 116] then 2
  else if name = [103, 101, 116] then 1
  else if name = [100, 101, 108] then 1
  else if name = [104, 115, 101, 116] then 3
  else if name = [104, 103, 101, 116] then 2
  else 0


/-! ## The loops, one iteration at a time -/

theorem encodeLoop_short (fuel : Nat) (buf src : Bytes) (h : src.length ≤ 8) :
    encodeLoop (fuel + 1) buf src
      = buf ++ src ++ List.replicate (8 - src.length) 0 ++ [src.length] := by
  have h1 : ¬ (8 < src.length) := by omega
  simp only [encodeLoop, rdbEscapeLength, paddingZeros]
  simp only [show (9 - 1 : Nat) = 8 from rfl, h1, if_false, List.take_length, List.drop_length,
    List.length_nil, if_true]
  by_cases h2 : 8 - src.length > 0
  · simp only [h2, if_true]
    rw [List.take_replicate]
    congr 3
    omega
  · simp only [h2, if_false]
    have : 8 - src.length = 0 := by omega
    simp [this]

theorem encodeLoop_long (fuel : Nat) (buf src : Bytes) (h : 8 < src.length) :
    encodeLoop (fuel + 1) buf src = encodeLoop fuel (buf ++ src.take 8 ++ [9]) (src.drop 8) := by
  have h2 : ¬ ((src.drop 8).length = 0) := by simp; omega
  simp only [encodeLoop, rdbEscapeLength]
  simp only [show (9 - 1 : Nat) = 8 from rfl, h, if_true, h2, if_false]

theorem escapeFrom_short (xs : Bytes) : ∀ j, j + xs.length ≤ 8 →
    escapeFrom j xs = xs ++ List.replicate (8 - (j + xs.length)) 0 ++ [j + xs.length] := by
  induction xs with
  | nil => intro j _; simp [escapeFrom]
  | cons x xs ih =>
    intro j h
    simp only [List.length_cons] at h
    have hj : j ≠ 8 := by omega
    simp only [escapeFrom, hj, if_false, List.length_cons, List.cons_append]
    rw [ih (j + 1) (by omega)]
    have e : j + 1 + xs.length = j + (xs.length + 1) := by omega
    rw [e]

theorem escapeFrom_append (xs r : Bytes) : ∀ j, j + xs.length ≤ 8 →
    escapeFrom j (xs ++ r) = xs ++ escapeFrom (j + xs.length) r := by
  induction xs with
  | nil => intro j _; simp
  | cons x xs ih =>
    intro j h
    simp only [List.length_cons] at h
    have hj : j ≠ 8 := by omega
    have e : j + 1 + xs.length = j + (xs.length + 1) := by omega
    rw [List.cons_append, escapeFrom, if_neg hj, ih (j + 1) (by omega), e, List.length_cons,
      List.cons_append]

theorem escapeFrom_long (src : Bytes) (h : 8 < src.length) :
    escapeFrom 0 src = src.take 8 ++ [9] ++ escapeFrom 0 (src.drop 8) := by
  have hl : (src.take 8).length = 8 := by simp; omega
  conv_lhs => rw [← List.take_append_drop 8 src]
  rw [escapeFrom_append _ _ 0 (by omega), hl]
  cases hd : src.drop 8 with
  | nil =>
    have : (src.drop 8).length = 0 := by rw [hd]; rfl
    simp at this; omega
  | cons x r => simp [escapeFrom]

theorem encodeLoop_eq : ∀ (fuel : Nat) (buf src : Bytes), src.length < fuel →
    encodeLoop fuel buf src = buf ++ escapeFrom 0 src := by
  intro fuel
  induction fuel with
  | zero => intro _ _ h; omega
  | succ fuel ih =>
    intro buf src h
    by_cases hs : src.length ≤ 8
    · rw [encodeLoop_short fuel buf src hs, escapeFrom_short src 0 (by omega)]
      simp
    · have hl : 8 < src.length := by omega
      rw [encodeLoop_long fuel buf src hl, ih _ _ (by simp; omega), escapeFrom_long src hl]
      simp

theorem EncodeBytes_eq (buf src : Bytes) : EncodeBytes buf src = buf ++ escapeFrom 0 src :=
  encodeLoop_eq _ buf src (by omega)

theorem decodeLoop_last (fuel : Nat) (data group rest : Bytes) (n : Nat)
    (hg : group.length = 8) (hn : n ≤ 8) (hz : ∀ v ∈ group.drop n, v = 0) :
    decodeLoop (fuel + 1) data (group ++ n :: rest) = .ok (rest, data ++ group.take n) := by
  have h1 : ¬ ((group ++ n :: rest).length < 9) := by simp; omega
  have h2 : (group ++ n :: rest).take 9 = group ++ [n] := by
    rw [List.take_append_eq_append_take, List.take_of_length_le (by omega), hg]
    simp
  have h3 : (group ++ [n]).take 8 = group := by
    rw [List.take_append_of_le_length (by omega), List.take_of_length_le (by omega)]
  have h4 : (group ++ [n]).getD 8 0 = n := by
    rw [List.getD_append_right _ _ _ _ (by omega), hg]; rfl
  have h5 : (group ++ n :: rest).drop 9 = rest := by
    rw [List.drop_append_eq_append_drop, List.drop_of_length_le (by omega), hg]
    simp
  have h6 : (group.drop n).any (fun v => v != 0) = false := by
    rw [List.any_eq_false]
    intro v hv
    simp [hz v hv]
  simp only [decodeLoop, rdbEscapeLength, show (9 - 1 : Nat) = 8 from rfl, h1, if_false, h2, h3,
    h4, h5, h6]
  have h7 : ¬ (n > 9) := by omega
  have h8 : n < 9 := by omega
  simp [h7, h8]

theorem decodeLoop_more (fuel : Nat) (data group rest : Bytes) (hg : group.length = 8) :
    decodeLoop (fuel + 1) data (group ++ 9 :: rest) = decodeLoop fuel (data ++ group) rest := by
  have h1 : ¬ ((group ++ 9 :: rest).length < 9) := by simp; omega
  have h2 : (group ++ 9 :: rest).take 9 = group ++ [9] := by
    rw [List.take_append_eq_append_take, List.take_of_length_le (by omega), hg]
    simp
  have h3 : (group ++ [9]).take 8 = group := by
    rw [List.take_append_of_le_length (by omega), List.take_of_length_le (by omega)]
  have h4 : (group ++ [9]).getD 8 0 = 9 := by
    rw [List.getD_append_right _ _ _ _ (by omega), hg]; rfl
  have h5 : (group ++ 9 :: rest).drop 9 = rest := by
    rw [List.drop_append_eq_append_drop, List.drop_of_length_le (by omega), hg]
    simp
  simp only [decodeLoop, rdbEscapeLength, show (9 - 1 : Nat) = 8 from rfl, h1, if_false, h2, h3,
    h4, h5]
  simp [List.take_of_length_le (Nat.le_of_eq hg)]

theorem decodeLoop_escape : ∀ (fuel : Nat) (s data rest : Bytes), s.length < 8 * fuel →
    decodeLoop fuel data (escapeFrom 0 s ++ rest) = .ok (rest, data ++ s) := by
  intro fuel
  induction fuel with
  | zero => intro _ _ _ h; omega
  | succ fuel ih =>
    intro s data rest h
    by_cases hs : s.length ≤ 8
    · rw [escapeFrom_short s 0 (by omega)]
      have e : s ++ List.replicate (8 - (0 + s.length)) 0 ++ [0 + s.length] ++ rest
          = (s ++ List.replicate (8 - s.length) 0) ++ s.length :: rest := by simp
      rw [e, decodeLoop_last fuel data _ rest s.length (by simp; omega) hs]
      · simp
      · intro v hv
        rw [List.drop_append_of_le_length (Nat.le_refl _)] at hv
        simp at hv
        exact hv.2
    · have hl : 8 < s.length := by omega
      rw [escapeFrom_long s hl]
      have e : s.take 8 ++ [9] ++ escapeFrom 0 (s.drop 8) ++ rest
          = s.take 8 ++ 9 :: (escapeFrom 0 (s.drop 8) ++ rest) := by simp
      rw [e, decodeLoop_more fuel data _ _ (by simp; omega), ih _ _ _ (by simp; omega)]
      simp [List.append_assoc]

theorem length_escapeFrom (s : Bytes) : ∀ j, s.length < (escapeFrom j s).length := by
  induction s with
  | nil => intro j; simp [escapeFrom]
  | cons x xs ih =>
    intro j
    simp only [escapeFrom]
    split
    · have := ih 1; simp only [List.length_cons]; omega
    · have := ih (j + 1); simp only [List.length_cons]; omega

/-- Decoding what `EncodeBytes` wrote in front of any bytes `rest` gives back
the source and leaves `rest`. -/
theorem DecodeBytes_EncodeBytes_append (s rest : Bytes) :
    DecodeBytes (EncodeBytes [] s ++ rest) = .ok (rest, s) := by
  rw [EncodeBytes_eq, List.nil_append]
  unfold DecodeBytes
  have h := decodeLoop_escape ((escapeFrom 0 s ++ rest).length + 1) s [] rest (by
    have := length_escapeFrom s 0
    simp only [List.length_append]; omega)
  simpa using h

/-- C1. Round trip of the byte codec: decoding `EncodeBytes(nil, s)` succeeds
with the empty left buffer and exactly `s`. -/
theorem C1_decode_encode_round_trip (s : Bytes) :
    DecodeBytes (EncodeBytes [] s) = .ok ([], s) := by
  have h := DecodeBytes_EncodeBytes_append s []
  simpa using h


/-! ## Byte order and byte prefixes -/

theorem bytesLt_irrefl (a : Bytes) : bytesLt a a = false := by
  induction a with
  | nil => rfl
  | cons x xs ih => simp [bytesLt, ih]

theorem bytesLt_asymm : ∀ (a b : Bytes), bytesLt a b = true → bytesLt b a = false := by
  intro a
  induction a with
  | nil => intro b _; cases b <;> rfl
  | cons x xs ih =>
    intro b h
    cases b with
    | nil => simp [bytesLt] at h
    | cons y ys =>
      simp only [bytesLt, Bool.or_eq_true, decide_eq_true_eq, Bool.and_eq_true, beq_iff_eq] at h
      rcases h with h | ⟨h1, h2⟩
      · have h3 : ¬ (y < x) := by omega
        have h4 : ¬ (y = x) := by omega
        simp [bytesLt, h3, h4]
      · subst h1
        simp [bytesLt, ih ys h2]

theorem bytesLt_total : ∀ (a b : Bytes), bytesLt a b = false → a ≠ b → bytesLt b a = true := by
  intro a
  induction a with
  | nil =>
    intro b h hne
    cases b with
    | nil => exact absurd rfl hne
    | cons y ys => simp [bytesLt] at h
  | cons x xs ih =>
    intro b h hne
    cases b with
    | nil => rfl
    | cons y ys =>
      simp only [bytesLt, Bool.or_eq_false_iff, decide_eq_false_iff_not, Bool.and_eq_false_imp,
        beq_iff_eq] at h
      simp only [bytesLt, Bool.or_eq_true, decide_eq_true_eq, Bool.and_eq_true, beq_iff_eq]
      by_cases hxy : x = y
      · subst hxy
        right
        refine ⟨rfl, ih ys (h.2 rfl) ?_⟩
        intro e
        exact hne (by rw [e])
      · left; omega

theorem bytesLt_trans : ∀ (a b c : Bytes), bytesLt a b = true → bytesLt b c = true →
    bytesLt a c = true := by
  intro a
  induction a with
  | nil =>
    intro b c hab hbc
    cases c with
    | nil => cases b <;> simp [bytesLt] at hbc
    | cons z zs => rfl
  | cons x xs ih =>
    intro b c hab hbc
    cases b with
    | nil => simp [bytesLt] at hab
    | cons y ys =>
      cases c with
      | nil => simp [bytesLt] at hbc
      | cons z zs =>
        simp only [bytesLt, Bool.or_eq_true, decide_eq_true_eq, Bool.and_eq_true, beq_iff_eq]
          at hab hbc ⊢
        rcases hab with h1 | ⟨h1, h2⟩
        · rcases hbc with h3 | ⟨h3, _⟩
          · left; omega
          · left; omega
        · rcases hbc with h3 | ⟨h3, h4⟩
          · left; omega
          · right; exact ⟨by omega, ih ys zs h2 h4⟩

theorem bytesLt_append_left (p a b : Bytes) : bytesLt (p ++ a) (p ++ b) = bytesLt a b := by
  induction p with
  | nil => rfl
  | cons x xs ih => simp [bytesLt, ih]

theorem HasPrefix_iff : ∀ (k p : Bytes), HasPrefix k p = true ↔ ∃ r, k = p ++ r := by
  intro k p
  induction p generalizing k with
  | nil => cases k <;> simp [HasPrefix]
  | cons b bs ih =>
    cases k with
    | nil => simp [HasPrefix]
    | cons a as =>
      simp only [HasPrefix, Bool.and_eq_true, beq_iff_eq, ih, List.cons_append, List.cons.injEq]
      constructor
      · rintro ⟨h, r, hr⟩; exact ⟨r, h, hr⟩
      · rintro ⟨r, h, hr⟩; exact ⟨h, r, hr⟩

theorem HasPrefix_append (p r : Bytes) : HasPrefix (p ++ r) p = true :=
  (HasPrefix_iff _ _).2 ⟨r, rfl⟩

/-! ## Order preservation -/

theorem replicate_pad (j : Nat) (h : j < 8) :
    List.replicate (8 - j) 0 = 0 :: List.replicate (8 - (j + 1)) 0 := by
  have e : 8 - j = (8 - (j + 1)) + 1 := by omega
  rw [e, List.replicate_succ]

theorem pad_lt_escapeFrom (ys : Bytes) : ∀ (j' j : Nat), j < j' → j' ≤ 8 →
    bytesLt (List.replicate (8 - j') 0 ++ [j]) (escapeFrom j' ys) = true := by
  induction ys with
  | nil =>
    intro j' j h _
    simp only [escapeFrom]
    rw [bytesLt_append_left]
    simp [bytesLt, h]
  | cons y ys ih =>
    intro j' j h h8
    by_cases hj : j' = 8
    · subst hj
      have : j < 9 := by omega
      simp [escapeFrom, bytesLt, this]
    · have hlt : j' < 8 := by omega
      rw [escapeFrom, if_neg hj, replicate_pad j' hlt, List.cons_append]
      simp only [bytesLt, Bool.or_eq_true, decide_eq_true_eq, Bool.and_eq_true, beq_iff_eq]
      by_cases hy : 0 < y
      · left; exact hy
      · right
        exact ⟨by omega, ih (j' + 1) j (by omega) (by omega)⟩

theorem escapeFrom_mono : ∀ (a b : Bytes) (j : Nat), j ≤ 8 → bytesLt a b = true →
    bytesLt (escapeFrom j a) (escapeFrom j b) = true := by
  intro a
  induction a with
  | nil =>
    intro b j h8 h
    cases b with
    | nil => simp [bytesLt] at h
    | cons y ys =>
      by_cases hj : j = 8
      · subst hj
        simp [escapeFrom, bytesLt]
      · have hlt : j < 8 := by omega
        rw [escapeFrom, escapeFrom, if_neg hj, replicate_pad j hlt, List.cons_append]
        simp only [bytesLt, Bool.or_eq_true, decide_eq_true_eq, Bool.and_eq_true, beq_iff_eq]
        by_cases hy : 0 < y
        · left; exact hy
        · right
          exact ⟨by omega, pad_lt_escapeFrom ys (j + 1) j (by omega) (by omega)⟩
  | cons x xs ih =>
    intro b j h8 h
    cases b with
    | nil => simp [bytesLt] at h
    | cons y ys =>
      simp only [bytesLt, Bool.or_eq_true, decide_eq_true_eq, Bool.and_eq_true, beq_iff_eq] at h
      by_cases hj : j = 8
      · subst hj
        simp only [escapeFrom, if_true, bytesLt, Bool.or_eq_true, decide_eq_true_eq,
          Bool.and_eq_true, beq_iff_eq]
        right
        refine ⟨trivial, ?_⟩
        rcases h with h | ⟨h1, h2⟩
        · left; exact h
        · right; exact ⟨h1, ih ys 1 (by omega) h2⟩
      · have hlt : j < 8 := by omega
        rw [escapeFrom, escapeFrom, if_neg hj, if_neg hj]
        simp only [bytesLt, Bool.or_eq_true, decide_eq_true_eq, Bool.and_eq_true, beq_iff_eq]
        rcases h with h | ⟨h1, h2⟩
        · left; exact h
        · right; exact ⟨h1, ih ys (j + 1) (by omega) h2⟩

theorem EncodeBytes_mono (a b : Bytes) (h : bytesLt a b = true) :
    bytesLt (EncodeBytes [] a) (EncodeBytes [] b) = true := by
  rw [EncodeBytes_eq, EncodeBytes_eq]
  exact escapeFrom_mono a b 0 (by omega) h

/-- C2. Order preservation of the byte codec: `a` is below `b` in
lexicographic byte order exactly when `EncodeBytes(nil, a)` is below
`EncodeBytes(nil, b)`. -/
theorem C2_encode_preserves_order (a b : Bytes) :
    bytesLt a b = true ↔ bytesLt (EncodeBytes [] a) (EncodeBytes [] b) = true := by
  constructor
  · exact EncodeBytes_mono a b
  · intro h
    by_contra hab
    have hab' : bytesLt a b = false := by simpa using hab
    by_cases e : a = b
    · subst e
      rw [bytesLt_irrefl] at h
      exact Bool.false_ne_true h
    · have h1 := EncodeBytes_mono b a (bytesLt_total a b hab' e)
      rw [bytesLt_asymm _ _ h] at h1
      exact Bool.false_ne_true h1

/-! ## Prefix injectivity -/

theorem EncodeBytes_append_inj (k1 k2 r1 r2 : Bytes)
    (h : EncodeBytes [] k1 ++ r1 = EncodeBytes [] k2 ++ r2) : k1 = k2 ∧ r1 = r2 := by
  have h1 := DecodeBytes_EncodeBytes_append k1 r1
  rw [h, DecodeBytes_EncodeBytes_append k2 r2] at h1
  simp only [Except.ok.injEq, Prod.mk.injEq] at h1
  exact ⟨h1.2.symm, h1.1.symm⟩

theorem not_HasPrefix_EncodeBytes (k1 k2 r : Bytes) (h : k1 ≠ k2) :
    HasPrefix (EncodeBytes [] k1 ++ r) (EncodeBytes [] k2) = false := by
  cases hp : HasPrefix (EncodeBytes [] k1 ++ r) (EncodeBytes [] k2) with
  | false => rfl
  | true =>
    obtain ⟨r', hr⟩ := (HasPrefix_iff _ _).1 hp
    exact absurd (EncodeBytes_append_inj k1 k2 r r' hr).1 h

theorem EncodeStringKey_eq (tg : Tags) (k : Bytes) :
    EncodeStringKey tg [] k = EncodeBytes [] k ++ [tg.String] := by
  simp [EncodeStringKey]

theorem EncodeHashMetaKey_eq (tg : Tags) (k : Bytes) :
    EncodeHashMetaKey tg [] k = EncodeBytes [] k ++ [tg.HashMeta] := by
  simp [EncodeHashMetaKey]

theorem EncodeHashField_eq (tg : Tags) (k f : Bytes) :
    EncodeHashField tg [] k f
      = EncodeBytes [] k ++ ([tg.HashField] ++ (EncodeBytes [] k ++ ([tg.HashField]
          ++ EncodeBytes [] f))) := by
  simp [EncodeHashField, EncodeBytes_eq]

/-- C3. Prefix injectivity of the byte codec: for distinct byte strings
neither escaped form is a byte-prefix of the other, and no string key, hash
meta key or hash field key built from `k1` has the escaped form of `k2` as a
byte-prefix. -/
theorem C3_encode_prefix_injective (tg : Tags) (k1 k2 : Bytes) (h : k1 ≠ k2) :
    HasPrefix (EncodeBytes [] k2) (EncodeBytes [] k1) = false
    ∧ HasPrefix (EncodeBytes [] k1) (EncodeBytes [] k2) = false
    ∧ HasPrefix (EncodeStringKey tg [] k1) (EncodeBytes [] k2) = false
    ∧ HasPrefix (EncodeHashMetaKey tg [] k1) (EncodeBytes [] k2) = false
    ∧ ∀ f, HasPrefix (EncodeHashField tg [] k1 f) (EncodeBytes [] k2) = false := by
  refine ⟨?_, ?_, ?_, ?_, ?_⟩
  · have := not_HasPrefix_EncodeBytes k2 k1 [] (Ne.symm h)
    simpa using this
  · have := not_HasPrefix_EncodeBytes k1 k2 [] h
    simpa using this
  · rw [EncodeStringKey_eq]; exact not_HasPrefix_EncodeBytes k1 k2 _ h
  · rw [EncodeHashMetaKey_eq]; exact not_HasPrefix_EncodeBytes k1 k2 _ h
  · intro f
    rw [EncodeHashField_eq]; exact not_HasPrefix_EncodeBytes k1 k2 _ h

/-- C3 at the keys "a" and "ab". -/
theorem C3_encode_prefix_injective_witness :
    ([97] : Bytes) ≠ [97, 98]
    ∧ HasPrefix (EncodeBytes [] [97, 98]) (EncodeBytes [] [97]) = false
    ∧ HasPrefix (EncodeBytes [] [97]) (EncodeBytes [] [97, 98]) = false
    ∧ HasPrefix (EncodeStringKey ⟨0, 1, 2⟩ [] [97]) (EncodeBytes [] [97, 98]) = false
    ∧ HasPrefix (EncodeHashMetaKey ⟨0, 1, 2⟩ [] [97]) (EncodeBytes [] [97, 98]) = false
    ∧ ∀ f, HasPrefix (EncodeHashField ⟨0, 1, 2⟩ [] [97] f) (EncodeBytes [] [97, 98]) = false :=
  ⟨by decide, C3_encode_prefix_injective ⟨0, 1, 2⟩ [97] [97, 98] (by decide)⟩


/-! ## The storage backend -/

theorem Store.get_set_self (s : Store) (k v : Bytes) : (s.set k v).get k = some v := by
  induction s with
  | nil => simp [Store.set, Store.get]
  | cons e s ih =>
    simp only [Store.set]
    split
    · rename_i h
      have hne : e.1 ≠ k := by
        intro he
        rw [he, bytesLt_irrefl] at h
        exact Bool.false_ne_true h
      simp [Store.get, hne, ih]
    · split <;> simp [Store.get]

theorem Store.get_set_ne (s : Store) (k v k' : Bytes) (h : k' ≠ k) :
    (s.set k v).get k' = s.get k' := by
  induction s with
  | nil => simp [Store.set, Store.get, Ne.symm h]
  | cons e s ih =>
    simp only [Store.set]
    split
    · simp [Store.get, ih]
    · split
      · rename_i he
        simp [Store.get, Ne.symm h, he]
      · simp [Store.get, Ne.symm h]

theorem Store.mem_set (s : Store) (k v : Bytes) (e : Entry) (h : e ∈ s.set k v) :
    e = (k, v) ∨ e ∈ s := by
  induction s with
  | nil => simpa [Store.set] using h
  | cons e' s ih =>
    simp only [Store.set] at h
    split at h
    · rcases List.mem_cons.1 h with h | h
      · right; rw [h]; exact List.mem_cons_self _ _
      · rcases ih h with h | h
        · left; exact h
        · right; exact List.mem_cons_of_mem _ h
    · split at h
      · rcases List.mem_cons.1 h with h | h
        · left; exact h
        · right; exact List.mem_cons_of_mem _ h
      · rcases List.mem_cons.1 h with h | h
        · left; exact h
        · right; exact h

theorem Store.get_isSome_set (s : Store) (k v k' : Bytes) (h : (s.get k').isSome = true) :
    ((s.set k v).get k').isSome = true := by
  by_cases e : k' = k
  · rw [e, Store.get_set_self]; rfl
  · rw [Store.get_set_ne s k v k' e]; exact h

theorem Store.sorted_cons (e : Entry) (s : Store) (h : Store.sorted (e :: s) = true) :
    Store.sorted s = true ∧ ∀ e' ∈ s, bytesLt e.1 e'.1 = true := by
  induction s generalizing e with
  | nil => simp [Store.sorted]
  | cons e₂ s ih =>
    simp only [Store.sorted, Bool.and_eq_true] at h
    refine ⟨h.2, ?_⟩
    intro e' he'
    rcases List.mem_cons.1 he' with he' | he'
    · rw [he']; exact h.1
    · exact bytesLt_trans _ _ _ h.1 ((ih e₂ h.2).2 e' he')

theorem Store.seek_mem (s : Store) (x : Bytes) (e : Entry) (h : e ∈ s.seek x) : e ∈ s :=
  (List.dropWhile_suffix _).subset h

/-- On a store in key order `Seek` leaves exactly the entries whose key is not
below the sought key. -/
theorem Store.seek_eq_filter (s : Store) (x : Bytes) (h : s.sorted = true) :
    s.seek x = s.filter (fun e => !bytesLt e.1 x) := by
  induction s with
  | nil => rfl
  | cons e s ih =>
    obtain ⟨hs, hlt⟩ := Store.sorted_cons e s h
    unfold Store.seek at ih ⊢
    by_cases he : bytesLt e.1 x = true
    · simp only [List.dropWhile_cons, he, if_true, ih hs]
      simp [List.filter_cons, he]
    · have he' : bytesLt e.1 x = false := by simpa using he
      simp only [List.dropWhile_cons, he']
      have hall : ∀ e' ∈ s, (!bytesLt e'.1 x) = true := by
        intro e' hm
        cases hx : bytesLt e'.1 x with
        | false => rfl
        | true => exact absurd (bytesLt_trans _ _ _ (hlt e' hm) hx) he
      simp only [List.filter_cons, he', Bool.not_false, if_true]
      rw [List.filter_eq_self.2 hall]
      simp


/-! ## The prefix locator -/

@[simp] theorem noFaults_beginErr : noFaults.beginErr = none := rfl
@[simp] theorem noFaults_seekErr : noFaults.seekErr = none := rfl
@[simp] theorem noFaults_nextErr : noFaults.nextErr = none := rfl
@[simp] theorem noFaults_getErr : noFaults.getErr = none := rfl
@[simp] theorem noFaults_setErr : noFaults.setErr = none := rfl
@[simp] theorem noFaults_deleteErr : noFaults.deleteErr = none := rfl
@[simp] theorem noFaults_commitErr : noFaults.commitErr = none := rfl

theorem SeekPrefix_none_of_no_raw (s : Store) (key : Bytes)
    (h : ∀ e ∈ s, HasPrefix e.1 key = false) : SeekPrefix noFaults s key = .ok none := by
  simp only [SeekPrefix, txnSeek, noFaults_seekErr]
  cases hs : s.seek (EncodeBytes [] key) with
  | nil => simp [Iterator.Valid]
  | cons e rest =>
    have hm : e ∈ s := Store.seek_mem s _ e (by rw [hs]; exact List.mem_cons_self _ _)
    simp [Iterator.Valid, Iterator.Key, h e hm]

/-- C4. The prefix locator tests the key under the iterator against the
logical key itself and not against its escaped form.  With only the string key
of "ab" stored, `SeekPrefix` for "a" returns an iterator at that key, which
does not have the escaped form of "a" as a byte-prefix; with the string key of
the nine-byte key "abcdefghi" stored, `SeekPrefix` for that key returns the
nil iterator although the stored key has its escaped form as a byte-prefix. -/
theorem C4_SeekPrefix_tests_raw_key : ∀ tg : Tags,
    SeekPrefix noFaults [(EncodeStringKey tg [] [97, 98], [120])] [97]
        = .ok (some ⟨[(EncodeStringKey tg [] [97, 98], [120])]⟩)
    ∧ HasPrefix (EncodeStringKey tg [] [97, 98]) (EncodeBytes [] [97]) = false
    ∧ SeekPrefix noFaults
        [(EncodeStringKey tg [] [97, 98, 99, 100, 101, 102, 103, 104, 105], [49])]
        [97, 98, 99, 100, 101, 102, 103, 104, 105] = .ok none
    ∧ HasPrefix (EncodeStringKey tg [] [97, 98, 99, 100, 101, 102, 103, 104, 105])
        (EncodeBytes [] [97, 98, 99, 100, 101, 102, 103, 104, 105]) = true := by
  intro tg
  exact ⟨rfl, rfl, rfl, rfl⟩

/-! ## SET and GET -/

theorem HandleGet_nil (tg : Tags) (db : Store) (key : Bytes)
    (h : SeekPrefix noFaults db key = .ok none) :
    HandleGet tg noFaults db key = (.ok .nil, db) := by
  simp only [HandleGet, noFaults_beginErr, h]

theorem HandleGet_some (tg : Tags) (db : Store) (key : Bytes) (it : Iterator)
    (h : SeekPrefix noFaults db key = .ok (some it))
    (ht : GetKeyType it.Key = some tg.String) :
    HandleGet tg noFaults db key = (.ok (.bulk it.Value), db) := by
  simp only [HandleGet, noFaults_beginErr, h, ht, noFaults_commitErr]
  simp

theorem HandleSet_nil (tg : Tags) (db : Store) (key value : Bytes)
    (h : SeekPrefix noFaults db key = .ok none) :
    HandleSet tg noFaults db key value = (.ok .OK, db.set (EncodeStringKey tg [] key) value) := by
  simp only [HandleSet, noFaults_beginErr, h, txnSet, noFaults_setErr, noFaults_commitErr]

theorem GetKeyType_append (p : Bytes) (t : Nat) : GetKeyType (p ++ [t]) = some t := by
  simp [GetKeyType]

/-- C5. On the empty store, SET of the nine-byte key "abcdefghi" to "1"
returns OK and stores the string key, and the GET of the same key that follows
returns the nil reply and not "1". -/
theorem C5_set_then_get_long_key_absent : ∀ tg : Tags,
    HandleSet tg noFaults [] [97, 98, 99, 100, 101, 102, 103, 104, 105] [49]
        = (.ok .OK, [(EncodeStringKey tg [] [97, 98, 99, 100, 101, 102, 103, 104, 105], [49])])
    ∧ HandleGet tg noFaults
        [(EncodeStringKey tg [] [97, 98, 99, 100, 101, 102, 103, 104, 105], [49])]
        [97, 98, 99, 100, 101, 102, 103, 104, 105]
        = (.ok .nil, [(EncodeStringKey tg [] [97, 98, 99, 100, 101, 102, 103, 104, 105], [49])]) := by
  intro tg
  exact ⟨rfl, rfl⟩

/-- C6. With only the string key of "ab" stored (value "x"), no stored key
has the escaped form of "a" as a byte-prefix, yet GET of "a" returns "x". -/
theorem C6_get_returns_value_of_other_key : ∀ tg : Tags,
    (∀ e ∈ [(EncodeStringKey tg [] [97, 98], [120])],
        HasPrefix (Prod.fst e) (EncodeBytes [] [97]) = false)
    ∧ HandleGet tg noFaults [(EncodeStringKey tg [] [97, 98], [120])] [97]
        = (.ok (.bulk [120]), [(EncodeStringKey tg [] [97, 98], [120])]) := by
  intro tg
  refine ⟨?_, ?_⟩
  · intro e he
    rw [List.mem_singleton.1 he]
    rfl
  · exact HandleGet_some tg _ _ ⟨[(EncodeStringKey tg [] [97, 98], [120])]⟩ rfl
      (by rw [EncodeStringKey_eq]; exact GetKeyType_append _ _)


/-! ## HSET and HGET -/

theorem HandleHashSet_nil (tg : Tags) (db : Store) (key field value : Bytes)
    (h : SeekPrefix noFaults db key = .ok none) :
    HandleHashSet tg noFaults db key field value
      = (.ok (.int 1), (db.set (EncodeHashMetaKey tg [] key) (FormatInt 1)).set
          (EncodeHashField tg [] key field) value) := by
  simp only [HandleHashSet, noFaults_beginErr, h, txnSet, noFaults_setErr, noFaults_commitErr]

theorem EncodeStringKey_ne_field (tg : Tags) (k f : Bytes) :
    EncodeStringKey tg [] k ≠ EncodeHashField tg [] k f := by
  intro h
  have hl := congrArg List.length h
  simp [EncodeStringKey_eq, EncodeHashField_eq] at hl

theorem EncodeHashMetaKey_ne_field (tg : Tags) (k f : Bytes) :
    EncodeHashMetaKey tg [] k ≠ EncodeHashField tg [] k f := by
  intro h
  have hl := congrArg List.length h
  simp [EncodeHashMetaKey_eq, EncodeHashField_eq] at hl

/-- No key that starts with the escaped form of "abcdefghi" starts with
"abcdefghi" itself: its ninth byte is the flag 9. -/
theorem no_raw_long (r : Bytes) :
    HasPrefix (EncodeBytes [] [97, 98, 99, 100, 101, 102, 103, 104, 105] ++ r)
      [97, 98, 99, 100, 101, 102, 103, 104, 105] = false := rfl

theorem no_raw_long_string (tg : Tags) :
    HasPrefix (EncodeStringKey tg [] [97, 98, 99, 100, 101, 102, 103, 104, 105])
      [97, 98, 99, 100, 101, 102, 103, 104, 105] = false := rfl

theorem no_raw_long_meta (tg : Tags) :
    HasPrefix (EncodeHashMetaKey tg [] [97, 98, 99, 100, 101, 102, 103, 104, 105])
      [97, 98, 99, 100, 101, 102, 103, 104, 105] = false := rfl

theorem no_raw_long_field (tg : Tags) (f : Bytes) :
    HasPrefix (EncodeHashField tg [] [97, 98, 99, 100, 101, 102, 103, 104, 105] f)
      [97, 98, 99, 100, 101, 102, 103, 104, 105] = false := by
  rw [EncodeHashField_eq]; exact no_raw_long _

/-- After HSET of a field of "abcdefghi" on the empty store the locator finds
nothing for "abcdefghi". -/
theorem SeekPrefix_long_after_hset (tg : Tags) (f v : Bytes) :
    SeekPrefix noFaults
      (Store.set (Store.set [] (EncodeHashMetaKey tg []
        [97, 98, 99, 100, 101, 102, 103, 104, 105]) (FormatInt 1))
        (EncodeHashField tg [] [97, 98, 99, 100, 101, 102, 103, 104, 105] f) v)
      [97, 98, 99, 100, 101, 102, 103, 104, 105] = .ok none := by
  apply SeekPrefix_none_of_no_raw
  intro e he
  rcases Store.mem_set _ _ _ _ he with he | he
  · rw [he]; exact no_raw_long_field tg f
  · rcases Store.mem_set _ _ _ _ he with he | he
    · rw [he]; exact no_raw_long_meta tg
    · cases he

/-- C7. On the empty store, SET of the nine-byte key "abcdefghi" returns OK
and the HSET of the same key that follows returns 1 and no type error,
leaving both the string key and a hash field key of "abcdefghi" stored; in
the other order, HSET returns 1 and the SET that follows returns OK, again
with both stored. -/
theorem C7_long_key_holds_string_and_hash : ∀ tg : Tags,
    HandleSet tg noFaults [] [97, 98, 99, 100, 101, 102, 103, 104, 105] [49]
        = (.ok .OK, [(EncodeStringKey tg [] [97, 98, 99, 100, 101, 102, 103, 104, 105], [49])])
    ∧ (HandleHashSet tg noFaults
        [(EncodeStringKey tg [] [97, 98, 99, 100, 101, 102, 103, 104, 105], [49])]
        [97, 98, 99, 100, 101, 102, 103, 104, 105] [102] [50]).1 = .ok (.int 1)
    ∧ (Store.get (HandleHashSet tg noFaults
        [(EncodeStringKey tg [] [97, 98, 99, 100, 101, 102, 103, 104, 105], [49])]
        [97, 98, 99, 100, 101, 102, 103, 104, 105] [102] [50]).2
        (EncodeStringKey tg [] [97, 98, 99, 100, 101, 102, 103, 104, 105])).isSome = true
    ∧ Store.get (HandleHashSet tg noFaults
        [(EncodeStringKey tg [] [97, 98, 99, 100, 101, 102, 103, 104, 105], [49])]
        [97, 98, 99, 100, 101, 102, 103, 104, 105] [102] [50]).2
        (EncodeHashField tg [] [97, 98, 99, 100, 101, 102, 103, 104, 105] [102]) = some [50]
    ∧ (HandleHashSet tg noFaults [] [97, 98, 99, 100, 101, 102, 103, 104, 105] [102] [50]).1
        = .ok (.int 1)
    ∧ (HandleSet tg noFaults
        (HandleHashSet tg noFaults [] [97, 98, 99, 100, 101, 102, 103, 104, 105] [102] [50]).2
        [97, 98, 99, 100, 101, 102, 103, 104, 105] [49]).1 = .ok .OK
    ∧ Store.get (HandleSet tg noFaults
        (HandleHashSet tg noFaults [] [97, 98, 99, 100, 101, 102, 103, 104, 105] [102] [50]).2
        [97, 98, 99, 100, 101, 102, 103, 104, 105] [49]).2
        (EncodeStringKey tg [] [97, 98, 99, 100, 101, 102, 103, 104, 105]) = some [49]
    ∧ Store.get (HandleSet tg noFaults
        (HandleHashSet tg noFaults [] [97, 98, 99, 100, 101, 102, 103, 104, 105] [102] [50]).2
        [97, 98, 99, 100, 101, 102, 103, 104, 105] [49]).2
        (EncodeHashField tg [] [97, 98, 99, 100, 101, 102, 103, 104, 105] [102]) = some [50] := by
  intro tg
  have h1 : SeekPrefix noFaults
      [(EncodeStringKey tg [] [97, 98, 99, 100, 101, 102, 103, 104, 105], [49])]
      [97, 98, 99, 100, 101, 102, 103, 104, 105] = .ok none := rfl
  have h2 : SeekPrefix noFaults [] [97, 98, 99, 100, 101, 102, 103, 104, 105] = .ok none := rfl
  rw [HandleHashSet_nil tg _ _ _ _ h1, HandleHashSet_nil tg _ _ _ _ h2,
    HandleSet_nil tg _ _ _ (SeekPrefix_long_after_hset tg _ _)]
  refine ⟨rfl, rfl, ?_, ?_, rfl, rfl, ?_, ?_⟩
  · apply Store.get_isSome_set
    apply Store.get_isSome_set
    simp [Store.get]
  · exact Store.get_set_self _ _ _
  · exact Store.get_set_self _ _ _
  · rw [Store.get_set_ne _ _ _ _ (Ne.symm (EncodeStringKey_ne_field tg _ _))]
    exact Store.get_set_self _ _ _

/-- C8. On the empty store, HSET of the field "f1" of the nine-byte key
"abcdefghi" returns 1, and the HSET of the second field "f2" that follows
returns 1 again and not 2; the meta key then holds the text "1", and HGET of
the field "f2" just written returns the nil reply. -/
theorem C8_hset_long_key_count_stays_one : ∀ tg : Tags,
    (HandleHashSet tg noFaults [] [97, 98, 99, 100, 101, 102, 103, 104, 105]
        [102, 49] [118, 49]).1 = .ok (.int 1)
    ∧ (HandleHashSet tg noFaults
        (HandleHashSet tg noFaults [] [97, 98, 99, 100, 101, 102, 103, 104, 105]
          [102, 49] [118, 49]).2
        [97, 98, 99, 100, 101, 102, 103, 104, 105] [102, 50] [118, 50]).1 = .ok (.int 1)
    ∧ Store.get (HandleHashSet tg noFaults
        (HandleHashSet tg noFaults [] [97, 98, 99, 100, 101, 102, 103, 104, 105]
          [102, 49] [118, 49]).2
        [97, 98, 99, 100, 101, 102, 103, 104, 105] [102, 50] [118, 50]).2
        (EncodeHashMetaKey tg [] [97, 98, 99, 100, 101, 102, 103, 104, 105]) = some [49]
    ∧ (HandleHashGet tg noFaults (HandleHashSet tg noFaults
        (HandleHashSet tg noFaults [] [97, 98, 99, 100, 101, 102, 103, 104, 105]
          [102, 49] [118, 49]).2
        [97, 98, 99, 100, 101, 102, 103, 104, 105] [102, 50] [118, 50]).2
        [97, 98, 99, 100, 101, 102, 103, 104, 105] [102, 50]).1 = .ok .nil := by
  intro tg
  have h2 : SeekPrefix noFaults [] [97, 98, 99, 100, 101, 102, 103, 104, 105] = .ok none := rfl
  rw [HandleHashSet_nil tg _ _ _ _ h2,
    HandleHashSet_nil tg _ _ _ _ (SeekPrefix_long_after_hset tg _ _)]
  refine ⟨rfl, rfl, ?_, ?_⟩
  · rw [Store.get_set_ne _ _ _ _ (EncodeHashMetaKey_ne_field tg _ _)]
    exact Store.get_set_self _ _ _
  · have h3 : SeekPrefix noFaults
        (Store.set (Store.set (Store.set (Store.set [] (EncodeHashMetaKey tg []
          [97, 98, 99, 100, 101, 102, 103, 104, 105]) (FormatInt 1))
          (EncodeHashField tg [] [97, 98, 99, 100, 101, 102, 103, 104, 105] [102, 49]) [118, 49])
          (EncodeHashMetaKey tg [] [97, 98, 99, 100, 101, 102, 103, 104, 105]) (FormatInt 1))
          (EncodeHashField tg [] [97, 98, 99, 100, 101, 102, 103, 104, 105] [102, 50]) [118, 50])
        [97, 98, 99, 100, 101, 102, 103, 104, 105] = .ok none := by
      apply SeekPrefix_none_of_no_raw
      intro e he
      rcases Store.mem_set _ _ _ _ he with he | he
      · rw [he]; exact no_raw_long_field tg _
      · rcases Store.mem_set _ _ _ _ he with he | he
        · rw [he]; exact no_raw_long_meta tg
        · rcases Store.mem_set _ _ _ _ he with he | he
          · rw [he]; exact no_raw_long_field tg _
          · rcases Store.mem_set _ _ _ _ he with he | he
            · rw [he]; exact no_raw_long_meta tg
            · cases he
    simp only [HandleHashGet, noFaults_beginErr, h3]

/-- C9. Whenever the locator returns an iterator at a key whose last byte is
the HashMeta tag and the field key is not stored, HGET returns the error
`kv.ErrNotExist` of the point read, not the nil reply without error. -/
theorem C9_hget_missing_field_is_error (tg : Tags) (db : Store) (h f : Bytes) (it : Iterator)
    (hs : SeekPrefix noFaults db h = .ok (some it))
    (ht : GetKeyType it.Key = some tg.HashMeta)
    (hf : db.get (EncodeHashField tg [] h f) = none) :
    HandleHashGet tg noFaults db h f = (.error .notExist, db) := by
  simp only [HandleHashGet, noFaults_beginErr, hs, ht, txnGet, noFaults_getErr, hf]
  simp

/-- C9 at the store left by HSET "h" "f1" "v1" on the empty store, with the
tags 0, 1, 2: HGET "h" "missing" returns the error. -/
theorem C9_hget_missing_field_is_error_witness :
    SeekPrefix noFaults (HandleHashSet ⟨0, 1, 2⟩ noFaults [] [104] [102, 49] [118, 49]).2 [104]
        = .ok (some ⟨(HandleHashSet ⟨0, 1, 2⟩ noFaults [] [104] [102, 49] [118, 49]).2⟩)
    ∧ (HandleHashSet ⟨0, 1, 2⟩ noFaults [] [104] [102, 49] [118, 49]).1 = .ok (.int 1)
    ∧ HandleHashGet ⟨0, 1, 2⟩ noFaults
        (HandleHashSet ⟨0, 1, 2⟩ noFaults [] [104] [102, 49] [118, 49]).2 [104]
        [109, 105, 115, 115, 105, 110, 103]
      = (.error .notExist, (HandleHashSet ⟨0, 1, 2⟩ noFaults [] [104] [102, 49] [118, 49]).2) :=
  ⟨by decide, by decide,
    C9_hget_missing_field_is_error ⟨0, 1, 2⟩ _ [104] [109, 105, 115, 115, 105, 110, 103]
      ⟨(HandleHashSet ⟨0, 1, 2⟩ noFaults [] [104] [102, 49] [118, 49]).2⟩
      (by decide) (by decide) (by decide)⟩


/-! ## DEL -/

theorem bytesLt_false_of_HasPrefix : ∀ (x p : Bytes), HasPrefix x p = true →
    bytesLt x p = false := by
  intro x p
  induction p generalizing x with
  | nil => intro _; cases x <;> rfl
  | cons b bs ih =>
    intro h
    cases x with
    | nil => simp [HasPrefix] at h
    | cons a as =>
      simp only [HasPrefix, Bool.and_eq_true, beq_iff_eq] at h
      simp [bytesLt, h.1, ih as h.2]

/-- A key that is not below `p` and does not start with `p` is above every
key that starts with `p`: no key after it starts with `p`. -/
theorem HasPrefix_false_of_lt : ∀ (p x y : Bytes), bytesLt x p = false →
    HasPrefix x p = false → bytesLt x y = true → HasPrefix y p = false := by
  intro p
  induction p with
  | nil => intro x y _ h _; cases x <;> simp [HasPrefix] at h
  | cons b bs ih =>
    intro x y h1 h2 h3
    cases x with
    | nil => simp [bytesLt] at h1
    | cons a as =>
      cases y with
      | nil => simp [bytesLt] at h3
      | cons c cs =>
        simp only [bytesLt, Bool.or_eq_false_iff, decide_eq_false_iff_not, Bool.and_eq_false_imp,
          beq_iff_eq] at h1
        simp only [HasPrefix, Bool.and_eq_false_imp, beq_iff_eq] at h2 ⊢
        simp only [bytesLt, Bool.or_eq_true, decide_eq_true_eq, Bool.and_eq_true, beq_iff_eq] at h3
        intro hcb
        subst hcb
        rcases h3 with h3 | ⟨h3, h4⟩
        · omega
        · subst h3
          exact ih as cs (h1.2 rfl) (h2 rfl) h4

theorem takeWhile_HasPrefix_eq_filter (p : Bytes) (t : Store) (hs : t.sorted = true)
    (hge : ∀ e ∈ t, bytesLt e.1 p = false) :
    t.takeWhile (fun e => HasPrefix e.1 p) = t.filter (fun e => HasPrefix e.1 p) := by
  induction t with
  | nil => rfl
  | cons e t ih =>
    obtain ⟨hs', hlt⟩ := Store.sorted_cons e t hs
    have hge' : ∀ e' ∈ t, bytesLt e'.1 p = false :=
      fun e' he' => hge e' (List.mem_cons_of_mem _ he')
    cases hp : HasPrefix e.1 p with
    | true =>
      simp only [List.takeWhile_cons, List.filter_cons, hp, if_true, ih hs' hge']
    | false =>
      have hnone : t.filter (fun e => HasPrefix e.1 p) = [] := by
        rw [List.filter_eq_nil_iff]
        intro e' he'
        rw [HasPrefix_false_of_lt p e.1 e'.1 (hge e (List.mem_cons_self _ _)) hp (hlt e' he')]
        simp
      simp [List.takeWhile_cons, List.filter_cons, hp, hnone]

/-- On a store in key order the keys from the sought position on that start
with `p`, up to the first that does not, are all the stored keys that start
with `p`. -/
theorem seek_takeWhile_eq_filter (p : Bytes) (s : Store) (hs : s.sorted = true) :
    (s.seek p).takeWhile (fun e => HasPrefix e.1 p) = s.filter (fun e => HasPrefix e.1 p) := by
  induction s with
  | nil => rfl
  | cons e s ih =>
    obtain ⟨hs', hlt⟩ := Store.sorted_cons e s hs
    cases he : bytesLt e.1 p with
    | true =>
      have hp : HasPrefix e.1 p = false := by
        cases hp : HasPrefix e.1 p with
        | false => rfl
        | true => rw [bytesLt_false_of_HasPrefix _ _ hp] at he; exact absurd he (by simp)
      have e1 : Store.seek (e :: s) p = Store.seek s p := by
        simp [Store.seek, List.dropWhile_cons, he]
      rw [e1, ih hs']
      simp [List.filter_cons, hp]
    | false =>
      have e1 : Store.seek (e :: s) p = e :: s := by
        simp [Store.seek, List.dropWhile_cons, he]
      rw [e1]
      apply takeWhile_HasPrefix_eq_filter p (e :: s) hs
      intro e' he'
      rcases List.mem_cons.1 he' with he' | he'
      · rw [he']; exact he
      · cases hx : bytesLt e'.1 p with
        | false => rfl
        | true =>
          rw [bytesLt_trans _ _ _ (hlt e' he') hx] at he
          exact absurd he (by simp)

theorem collectKeys_eq (p : Bytes) (it : List Entry) : ∀ keys : List Bytes,
    collectKeys noFaults p it keys
      = .ok (keys ++ (it.takeWhile (fun e => HasPrefix e.1 p)).map Prod.fst) := by
  induction it with
  | nil => intro keys; simp [collectKeys]
  | cons e it ih =>
    intro keys
    cases hp : HasPrefix e.1 p with
    | true => simp [collectKeys, hp, ih, List.takeWhile_cons]
    | false => simp [collectKeys, hp, List.takeWhile_cons]

theorem deleteKeys_eq (keys : List Bytes) : ∀ (txn : Store) (hasKey : Int),
    deleteKeys noFaults keys txn hasKey
      = .ok (txn.filter (fun e => decide (e.1 ∉ keys)), if keys = [] then hasKey else 1) := by
  induction keys with
  | nil => intro txn hasKey; simp [deleteKeys]
  | cons k keys ih =>
    intro txn hasKey
    simp only [deleteKeys, txnDelete, noFaults_deleteErr, ih, Store.delete, List.filter_filter]
    simp only [Except.ok.injEq, Prod.mk.injEq]
    refine ⟨?_, by simp⟩
    apply List.filter_congr
    intro e _
    simp only [List.mem_cons, not_or, ne_eq, Bool.decide_and, Bool.decide_eq_true, decide_not]
    exact Bool.and_comm _ _

/-- The result and the store of `HandleDelete` on a store in key order. -/
theorem HandleDelete_eq (db : Store) (k : Bytes) (h : db.sorted = true) :
    HandleDelete noFaults db k
      = (.ok (.int (if (db.filter (fun e => HasPrefix e.1 (EncodeBytes [] k))).map Prod.fst = []
            then 0 else 1)),
          db.filter (fun e => !HasPrefix e.1 (EncodeBytes [] k))) := by
  simp only [HandleDelete, noFaults_beginErr, txnSeek, noFaults_seekErr, collectKeys_eq,
    List.nil_append, seek_takeWhile_eq_filter _ db h, deleteKeys_eq, noFaults_commitErr]
  simp only [Prod.mk.injEq, true_and]
  apply List.filter_congr
  intro e he
  cases hp : HasPrefix e.1 (EncodeBytes [] k) with
  | true =>
    simp only [Bool.not_true, decide_eq_false_iff_not, not_not, List.mem_map, List.mem_filter]
    exact ⟨e, ⟨he, hp⟩, rfl⟩
  | false =>
    simp only [Bool.not_false, decide_eq_true_eq, List.mem_map, List.mem_filter, not_exists,
      not_and]
    intro e' he' hk
    rw [hk, hp] at he'
    exact absurd he'.2 (by simp)

theorem Store.get_filter_keep (s : Store) (f : Entry → Bool) (key : Bytes)
    (h : ∀ e ∈ s, e.1 = key → f e = true) : Store.get (s.filter f) key = Store.get s key := by
  induction s with
  | nil => rfl
  | cons e s ih =>
    have ih' := ih (fun e' he' => h e' (List.mem_cons_of_mem _ he'))
    by_cases hk : e.1 = key
    · simp [List.filter_cons, h e (List.mem_cons_self _ _) hk, Store.get, hk]
    · cases hf : f e with
      | true => simp [List.filter_cons, hf, Store.get, hk, ih']
      | false => simp [List.filter_cons, hf, Store.get, hk, ih']

theorem Store.get_filter_drop (s : Store) (f : Entry → Bool) (key : Bytes)
    (h : ∀ e ∈ s, e.1 = key → f e = false) : Store.get (s.filter f) key = none := by
  induction s with
  | nil => rfl
  | cons e s ih =>
    have ih' := ih (fun e' he' => h e' (List.mem_cons_of_mem _ he'))
    by_cases hk : e.1 = key
    · simp [List.filter_cons, h e (List.mem_cons_self _ _) hk, ih']
    · cases hf : f e with
      | true => simp [List.filter_cons, hf, Store.get, hk, ih']
      | false => simp [List.filter_cons, hf, ih']

/-- C10. DEL removes exactly the entries of the logical key: on a store in key
order, with every storage operation succeeding, the store after
`HandleDelete(k)` is the store before without the entries whose key has
`EncodeBytes(nil, k)` as a byte-prefix; such keys are no longer stored, every
other key keeps its value, and so does every string key, hash meta key and
hash field key of any other logical key. -/
theorem C10_delete_removes_exactly_prefixed (db : Store) (k : Bytes) (h : db.sorted = true) :
    (HandleDelete noFaults db k).2 = db.filter (fun e => !HasPrefix e.1 (EncodeBytes [] k))
    ∧ (∀ key, HasPrefix key (EncodeBytes [] k) = true →
        Store.get (HandleDelete noFaults db k).2 key = none)
    ∧ (∀ key, HasPrefix key (EncodeBytes [] k) = false →
        Store.get (HandleDelete noFaults db k).2 key = Store.get db key)
    ∧ ∀ (tg : Tags) (k' : Bytes), k' ≠ k →
        Store.get (HandleDelete noFaults db k).2 (EncodeStringKey tg [] k')
            = Store.get db (EncodeStringKey tg [] k')
        ∧ Store.get (HandleDelete noFaults db k).2 (EncodeHashMetaKey tg [] k')
            = Store.get db (EncodeHashMetaKey tg [] k')
        ∧ ∀ f, Store.get (HandleDelete noFaults db k).2 (EncodeHashField tg [] k' f)
            = Store.get db (EncodeHashField tg [] k' f) := by
  rw [HandleDelete_eq db k h]
  have keep : ∀ key, HasPrefix key (EncodeBytes [] k) = false →
      Store.get (db.filter (fun e => !HasPrefix e.1 (EncodeBytes [] k))) key
        = Store.get db key := by
    intro key hk
    apply Store.get_filter_keep
    intro e _ he
    rw [he, hk]; rfl
  refine ⟨rfl, ?_, keep, ?_⟩
  · intro key hk
    apply Store.get_filter_drop
    intro e _ he
    rw [he, hk]; rfl
  · intro tg k' hne
    refine ⟨keep _ ?_, keep _ ?_, fun f => keep _ ?_⟩
    · rw [EncodeStringKey_eq]; exact not_HasPrefix_EncodeBytes k' k _ hne
    · rw [EncodeHashMetaKey_eq]; exact not_HasPrefix_EncodeBytes k' k _ hne
    · rw [EncodeHashField_eq]; exact not_HasPrefix_EncodeBytes k' k _ hne


/-- C10 at the store holding the string key of "a" and the meta key and one
field key of the hash "h" (tags 0, 1, 2): DEL "h" leaves the string key of
"a" alone. -/
theorem C10_delete_removes_exactly_prefixed_witness :
    Store.sorted [(EncodeStringKey ⟨0, 1, 2⟩ [] [97], [49]),
        (EncodeHashMetaKey ⟨0, 1, 2⟩ [] [104], [49]),
        (EncodeHashField ⟨0, 1, 2⟩ [] [104] [102], [118])] = true
    ∧ (HandleDelete noFaults [(EncodeStringKey ⟨0, 1, 2⟩ [] [97], [49]),
        (EncodeHashMetaKey ⟨0, 1, 2⟩ [] [104], [49]),
        (EncodeHashField ⟨0, 1, 2⟩ [] [104] [102], [118])] [104]).2
      = [(EncodeStringKey ⟨0, 1, 2⟩ [] [97], [49])] :=
  ⟨by decide,
    (C10_delete_removes_exactly_prefixed [(EncodeStringKey ⟨0, 1, 2⟩ [] [97], [49]),
        (EncodeHashMetaKey ⟨0, 1, 2⟩ [] [104], [49]),
        (EncodeHashField ⟨0, 1, 2⟩ [] [104] [102], [118])] [104] (by decide)).1.trans
      (by decide)⟩


/-! ## Supporting facts about the embedding -/

/-- The order `bytesLt` is the lexicographic order of lists. -/
theorem bytesLt_iff_lex : ∀ (a b : Bytes), bytesLt a b = true ↔ List.Lex (· < ·) a b := by
  intro a
  induction a with
  | nil =>
    intro b
    cases b with
    | nil => simp [bytesLt]
    | cons y ys => simp [bytesLt, List.Lex.nil]
  | cons x xs ih =>
    intro b
    cases b with
    | nil => simp [bytesLt]
    | cons y ys =>
      simp only [bytesLt, Bool.or_eq_true, decide_eq_true_eq, Bool.and_eq_true, beq_iff_eq, ih]
      constructor
      · rintro (h | ⟨h1, h2⟩)
        · exact List.Lex.rel h
        · subst h1; exact List.Lex.cons h2
      · intro h
        cases h with
        | rel h => left; exact h
        | cons h => right; exact ⟨rfl, h⟩

/-- The loop of `DecodeBytes` never runs out of the iterations `DecodeBytes`
gives it: more fuel than bytes changes nothing. -/
theorem decodeLoop_fuel : ∀ (fuel₁ fuel₂ : Nat) (data src : Bytes),
    src.length < fuel₁ → src.length < fuel₂ →
    decodeLoop fuel₁ data src = decodeLoop fuel₂ data src := by
  intro fuel₁
  induction fuel₁ with
  | zero => intro _ _ _ h; omega
  | succ fuel₁ ih =>
    intro fuel₂ data src h1 h2
    cases fuel₂ with
    | zero => omega
    | succ fuel₂ =>
      simp only [decodeLoop]
      split
      · rfl
      · rename_i hlen
        simp only [rdbEscapeLength] at hlen
        have hd : (src.drop rdbEscapeLength).length < fuel₁
            ∧ (src.drop rdbEscapeLength).length < fuel₂ := by
          simp only [rdbEscapeLength, List.length_drop]; omega
        rw [ih fuel₂ _ _ hd.1 hd.2]

theorem Store.sorted_of_cons (e : Entry) (s : Store) (hs : Store.sorted s = true)
    (hlt : ∀ e' ∈ s, bytesLt e.1 e'.1 = true) : Store.sorted (e :: s) = true := by
  cases s with
  | nil => rfl
  | cons e₂ s =>
    simp only [Store.sorted, Bool.and_eq_true]
    exact ⟨hlt e₂ (List.mem_cons_self _ _), hs⟩

/-- Removing entries keeps key order. -/
theorem Store.sorted_filter (f : Entry → Bool) (s : Store) (h : s.sorted = true) :
    Store.sorted (s.filter f) = true := by
  induction s with
  | nil => rfl
  | cons e s ih =>
    obtain ⟨hs, hlt⟩ := Store.sorted_cons e s h
    simp only [List.filter_cons]
    split
    · apply Store.sorted_of_cons _ _ (ih hs)
      intro e' he'
      exact hlt e' (List.mem_of_mem_filter he')
    · exact ih hs

/-- A write keeps key order. -/
theorem Store.sorted_set (s : Store) (k v : Bytes) (h : s.sorted = true) :
    Store.sorted (s.set k v) = true := by
  induction s with
  | nil => rfl
  | cons e s ih =>
    obtain ⟨hs, hlt⟩ := Store.sorted_cons e s h
    simp only [Store.set]
    split
    · rename_i hek
      apply Store.sorted_of_cons _ _ (ih hs)
      intro e' he'
      rcases Store.mem_set _ _ _ _ he' with he' | he'
      · rw [he']; exact hek
      · exact hlt e' he'
    · rename_i hek
      split
      · rename_i heq
        apply Store.sorted_of_cons _ _ hs
        intro e' he'
        have := hlt e' he'
        rw [heq] at this
        exact this
      · rename_i hne
        apply Store.sorted_of_cons _ _ h
        intro e' he'
        have hke : bytesLt k e.1 = true :=
          bytesLt_total e.1 k (by simpa using hek) hne
        rcases List.mem_cons.1 he' with he' | he'
        · rw [he']; exact hke
        · exact bytesLt_trans _ _ _ hke (hlt e' he')

theorem txnSet_sorted (fl : Faults) (txn txn' : Store) (k v : Bytes)
    (he : txnSet fl txn k v = .ok txn') (h : txn.sorted = true) : txn'.sorted = true := by
  simp only [txnSet] at he
  split at he
  · cases he
  · cases he; exact Store.sorted_set _ _ _ h

theorem deleteKeys_sorted (fl : Faults) (keys : List Bytes) :
    ∀ (txn txn' : Store) (hasKey hasKey' : Int),
    deleteKeys fl keys txn hasKey = .ok (txn', hasKey') → txn.sorted = true →
    txn'.sorted = true := by
  induction keys with
  | nil =>
    intro txn txn' hasKey hasKey' he h
    simp only [deleteKeys, Except.ok.injEq, Prod.mk.injEq] at he
    rw [← he.1]; exact h
  | cons k keys ih =>
    intro txn txn' hasKey hasKey' he h
    simp only [deleteKeys, txnDelete] at he
    cases hf : fl.deleteErr with
    | some err => simp [hf] at he
    | none =>
      simp only [hf] at he
      exact ih _ _ _ _ he (Store.sorted_filter _ _ h)

/-- Every handler leaves a store that is in key order in key order, so every
store reached from the empty store is in key order. -/
theorem handlers_keep_sorted (tg : Tags) (fl : Faults) (db : Store) (key field value : Bytes)
    (h : db.sorted = true) :
    Store.sorted (HandleSet tg fl db key value).2 = true
    ∧ Store.sorted (HandleGet tg fl db key).2 = true
    ∧ Store.sorted (HandleDelete fl db key).2 = true
    ∧ Store.sorted (HandleHashSet tg fl db key field value).2 = true
    ∧ Store.sorted (HandleHashGet tg fl db key field).2 = true := by
  refine ⟨?_, ?_, ?_, ?_, ?_⟩
  · simp only [HandleSet]
    repeat' split
    all_goals first
      | exact h
      | exact txnSet_sorted _ _ _ _ _ (by assumption) h
  · simp only [HandleGet]
    repeat' split
    all_goals exact h
  · simp only [HandleDelete]
    repeat' split
    all_goals first
      | exact h
      | exact deleteKeys_sorted _ _ _ _ _ _ (by assumption) h
  · simp only [HandleHashSet]
    repeat' split
    all_goals first
      | exact h
      | exact txnSet_sorted _ _ _ _ _ (by assumption)
          (txnSet_sorted _ _ _ _ _ (by assumption) h)
  · simp only [HandleHashGet]
    repeat' split
    all_goals exact h


/-! ## The result of DEL -/

/-- C11. The result of DEL: on a store in key order, with every storage
operation succeeding, `HandleDelete(k)` returns 1 when some stored key has
`EncodeBytes(nil, k)` as a byte-prefix and 0 otherwise, and a second
`HandleDelete(k)` right after the first returns 0. -/
theorem C11_delete_result (db : Store) (k : Bytes) (h : db.sorted = true) :
    (HandleDelete noFaults db k).1
      = .ok (.int (if db.any (fun e => HasPrefix e.1 (EncodeBytes [] k)) = true then 1 else 0))
    ∧ (HandleDelete noFaults (HandleDelete noFaults db k).2 k).1 = .ok (.int 0) := by
  have hs2 : Store.sorted (db.filter (fun e => !HasPrefix e.1 (EncodeBytes [] k))) = true :=
    Store.sorted_filter _ db h
  rw [HandleDelete_eq db k h]
  refine ⟨?_, ?_⟩
  · simp only [Except.ok.injEq, Reply.int.injEq]
    by_cases ha : db.any (fun e => HasPrefix e.1 (EncodeBytes [] k)) = true
    · rw [if_pos ha, if_neg]
      intro hnil
      rw [List.map_eq_nil_iff, List.filter_eq_nil_iff] at hnil
      obtain ⟨e, he, hp⟩ := List.any_eq_true.1 ha
      exact hnil e he hp
    · rw [if_neg ha, if_pos]
      rw [List.map_eq_nil_iff, List.filter_eq_nil_iff]
      intro e he hp
      exact ha (List.any_eq_true.2 ⟨e, he, hp⟩)
  · rw [HandleDelete_eq _ k hs2]
    simp only [Except.ok.injEq, Reply.int.injEq]
    rw [if_pos]
    rw [List.map_eq_nil_iff, List.filter_eq_nil_iff]
    intro e he hp
    have := (List.mem_filter.1 he).2
    rw [hp] at this
    exact absurd this (by simp)

/-- C11 at the store holding the string key of "a" and the meta key and one
field key of the hash "h" (tags 0, 1, 2): DEL "h" returns 1, then 0. -/
theorem C11_delete_result_witness :
    Store.sorted [(EncodeStringKey ⟨0, 1, 2⟩ [] [97], [49]),
        (EncodeHashMetaKey ⟨0, 1, 2⟩ [] [104], [49]),
        (EncodeHashField ⟨0, 1, 2⟩ [] [104] [102], [118])] = true
    ∧ (HandleDelete noFaults [(EncodeStringKey ⟨0, 1, 2⟩ [] [97], [49]),
        (EncodeHashMetaKey ⟨0, 1, 2⟩ [] [104], [49]),
        (EncodeHashField ⟨0, 1, 2⟩ [] [104] [102], [118])] [104]).1 = .ok (.int 1)
    ∧ (HandleDelete noFaults (HandleDelete noFaults [(EncodeStringKey ⟨0, 1, 2⟩ [] [97], [49]),
        (EncodeHashMetaKey ⟨0, 1, 2⟩ [] [104], [49]),
        (EncodeHashField ⟨0, 1, 2⟩ [] [104] [102], [118])] [104]).2 [104]).1 = .ok (.int 0) :=
  ⟨by decide,
    (C11_delete_result [(EncodeStringKey ⟨0, 1, 2⟩ [] [97], [49]),
        (EncodeHashMetaKey ⟨0, 1, 2⟩ [] [104], [49]),
        (EncodeHashField ⟨0, 1, 2⟩ [] [104] [102], [118])] [104] (by decide)).1.trans
      (by decide),
    (C11_delete_result [(EncodeStringKey ⟨0, 1, 2⟩ [] [97], [49]),
        (EncodeHashMetaKey ⟨0, 1, 2⟩ [] [104], [49]),
        (EncodeHashField ⟨0, 1, 2⟩ [] [104] [102], [118])] [104] (by decide)).2⟩

/-! ## The shape of the keys -/

/-- C12. The key `EncodeHashField(nil, k, f)` holds the escaped logical key
and the HashField tag twice: the second `EncodeBytes` call is given the buffer
built so far and returns it with the escaped field appended, and the whole is
appended to the buffer again.  It is never the escaped key, one tag byte and
the escaped field. -/
theorem C12_hash_field_key_repeats_head (tg : Tags) (k f : Bytes) :
    EncodeHashField tg [] k f
      = EncodeBytes [] k ++ [tg.HashField] ++ (EncodeBytes [] k ++ [tg.HashField])
          ++ EncodeBytes [] f
    ∧ EncodeHashField tg [] k f ≠ EncodeBytes [] k ++ [tg.HashField] ++ EncodeBytes [] f := by
  refine ⟨?_, ?_⟩
  · rw [EncodeHashField_eq]; simp
  · intro h
    have hl := congrArg List.length h
    rw [EncodeHashField_eq] at hl
    simp only [List.length_append, List.length_singleton] at hl
    omega

theorem GetKeyType_String (tg : Tags) (k : Bytes) :
    GetKeyType (EncodeStringKey tg [] k) = some tg.String := by
  rw [EncodeStringKey_eq]; exact GetKeyType_append _ _

theorem GetKeyType_HashMeta (tg : Tags) (k : Bytes) :
    GetKeyType (EncodeHashMetaKey tg [] k) = some tg.HashMeta := by
  rw [EncodeHashMetaKey_eq]; exact GetKeyType_append _ _

/-- C19. The shape of the string key and of the hash meta key:
`EncodeStringKey(nil, k)` is `EncodeBytes(nil, k)` followed by the String tag
byte, `EncodeHashMetaKey(nil, k)` is `EncodeBytes(nil, k)` followed by the
HashMeta tag byte, and `GetKeyType` of either returns that tag byte. -/
theorem C19_string_and_meta_key_shape (tg : Tags) (k : Bytes) :
    EncodeStringKey tg [] k = EncodeBytes [] k ++ [tg.String]
    ∧ EncodeHashMetaKey tg [] k = EncodeBytes [] k ++ [tg.HashMeta]
    ∧ GetKeyType (EncodeStringKey tg [] k) = some tg.String
    ∧ GetKeyType (EncodeHashMetaKey tg [] k) = some tg.HashMeta :=
  ⟨EncodeStringKey_eq tg k, EncodeHashMetaKey_eq tg k, GetKeyType_String tg k,
    GetKeyType_HashMeta tg k⟩

/-! ## Type mismatch -/

theorem EncodeBytes_ne_nil (k : Bytes) : EncodeBytes [] k ≠ [] := by
  intro h
  have hl := length_escapeFrom k 0
  rw [EncodeBytes_eq, List.nil_append] at h
  rw [h] at hl
  simp at hl

/-- The key under an iterator that `SeekPrefix` returns is not empty, so
`GetKeyType` does not panic on it. -/
theorem SeekPrefix_some_key (fl : Faults) (db : Store) (key : Bytes) (it : Iterator)
    (h : SeekPrefix fl db key = .ok (some it)) : ∃ tp, GetKeyType it.Key = some tp := by
  simp only [SeekPrefix, txnSeek] at h
  cases hf : fl.seekErr with
  | some e => simp [hf] at h
  | none =>
    simp only [hf] at h
    cases hs : db.seek (EncodeBytes [] key) with
    | nil => simp [hs, Iterator.Valid] at h
    | cons e rest =>
      have hnot : bytesLt e.1 (EncodeBytes [] key) = false := by
        have hd := List.head_dropWhile_not (fun e : Entry => bytesLt e.1 (EncodeBytes [] key)) db
        unfold Store.seek at hs
        simp only [hs] at hd
        simpa using hd (by simp)
      have hne : e.1 ≠ [] := by
        intro he
        rw [he] at hnot
        cases hk : EncodeBytes [] key with
        | nil => exact EncodeBytes_ne_nil key hk
        | cons x xs => rw [hk] at hnot; simp [bytesLt] at hnot
      simp only [hs, Iterator.Valid, Iterator.Key] at h
      split at h
      · cases h
      · split at h
        · cases h
        · simp only [Except.ok.injEq, Option.some.injEq] at h
          rw [← h]
          simp only [Iterator.Key, GetKeyType]
          cases hl : e.1.getLast? with
          | none => exact absurd (List.getLast?_eq_none_iff.1 hl) hne
          | some tp => exact ⟨tp, rfl⟩

/-- C13. Type mismatch is atomic: whenever `SeekPrefix` returns an iterator,
the key under it has a last byte; when this byte is not the String tag,
`HandleSet` and `HandleGet` return the type error and leave the store as it
was, and when it is not the HashMeta tag, `HandleHashSet` and `HandleHashGet`
do, whatever the later storage operations would have done. -/
theorem C13_type_mismatch_atomic (tg : Tags) (fl : Faults) (db : Store)
    (key field value : Bytes) (it : Iterator)
    (hb : fl.beginErr = none) (hs : SeekPrefix fl db key = .ok (some it)) :
    ∃ tp, GetKeyType it.Key = some tp
      ∧ (tp ≠ tg.String →
          HandleSet tg fl db key value = (.error (.invalidType tg.String tp), db)
          ∧ HandleGet tg fl db key = (.error (.invalidType tg.String tp), db))
      ∧ (tp ≠ tg.HashMeta →
          HandleHashSet tg fl db key field value = (.error (.invalidType tg.String tp), db)
          ∧ HandleHashGet tg fl db key field = (.error (.invalidType tg.String tp), db)) := by
  obtain ⟨tp, htp⟩ := SeekPrefix_some_key fl db key it hs
  refine ⟨tp, htp, ?_, ?_⟩
  · intro hne
    refine ⟨?_, ?_⟩
    · simp only [HandleSet, hb, hs, htp]
      simp [hne]
    · simp only [HandleGet, hb, hs, htp]
      simp [hne]
  · intro hne
    refine ⟨?_, ?_⟩
    · simp only [HandleHashSet, hb, hs, htp]
      simp [hne]
    · simp only [HandleHashGet, hb, hs, htp]
      simp [hne]

/-- C13 at the store left by SET "a" "1" on the empty store (tags 0, 1, 2):
HSET "a" "f" "v" and HGET "a" "f" return the type error and the store is as
it was. -/
theorem C13_type_mismatch_atomic_witness :
    ∃ tp, GetKeyType (Iterator.Key ⟨[(EncodeStringKey ⟨0, 1, 2⟩ [] [97], [49])]⟩) = some tp
      ∧ (tp ≠ 0 →
          HandleSet ⟨0, 1, 2⟩ noFaults [(EncodeStringKey ⟨0, 1, 2⟩ [] [97], [49])] [97] [118]
            = (.error (.invalidType 0 tp), [(EncodeStringKey ⟨0, 1, 2⟩ [] [97], [49])])
          ∧ HandleGet ⟨0, 1, 2⟩ noFaults [(EncodeStringKey ⟨0, 1, 2⟩ [] [97], [49])] [97]
            = (.error (.invalidType 0 tp), [(EncodeStringKey ⟨0, 1, 2⟩ [] [97], [49])]))
      ∧ (tp ≠ 1 →
          HandleHashSet ⟨0, 1, 2⟩ noFaults [(EncodeStringKey ⟨0, 1, 2⟩ [] [97], [49])]
              [97] [102] [118]
            = (.error (.invalidType 0 tp), [(EncodeStringKey ⟨0, 1, 2⟩ [] [97], [49])])
          ∧ HandleHashGet ⟨0, 1, 2⟩ noFaults [(EncodeStringKey ⟨0, 1, 2⟩ [] [97], [49])]
              [97] [102]
            = (.error (.invalidType 0 tp), [(EncodeStringKey ⟨0, 1, 2⟩ [] [97], [49])])) :=
  C13_type_mismatch_atomic ⟨0, 1, 2⟩ noFaults [(EncodeStringKey ⟨0, 1, 2⟩ [] [97], [49])]
    [97] [102] [118] ⟨[(EncodeStringKey ⟨0, 1, 2⟩ [] [97], [49])]⟩ (by decide) (by decide)


/-! ## Commit failures -/

@[simp] theorem commitFails_beginErr (e : Err) : (commitFails e).beginErr = none := rfl
@[simp] theorem commitFails_getErr (e : Err) : (commitFails e).getErr = none := rfl
@[simp] theorem commitFails_commitErr (e : Err) : (commitFails e).commitErr = some e := rfl

/-- C14. A failure of `Commit` is dropped by the two reading handlers: when
every earlier storage operation succeeds and `Commit` returns the error `e`,
`HandleGet` on a key that holds a string, and `HandleHashGet` on a stored
field of a key that holds a hash, return the nil reply with no error. -/
theorem C14_commit_failure_dropped_by_reads (tg : Tags) (db : Store) (key field v : Bytes)
    (it : Iterator) (e : Err)
    (hs : SeekPrefix (commitFails e) db key = .ok (some it)) :
    (GetKeyType it.Key = some tg.String →
        HandleGet tg (commitFails e) db key = (.ok .nil, db))
    ∧ (GetKeyType it.Key = some tg.HashMeta →
        db.get (EncodeHashField tg [] key field) = some v →
        HandleHashGet tg (commitFails e) db key field = (.ok .nil, db)) := by
  refine ⟨?_, ?_⟩
  · intro ht
    simp only [HandleGet, commitFails_beginErr, hs, ht, commitFails_commitErr]
    simp
  · intro ht hv
    simp only [HandleHashGet, commitFails_beginErr, hs, ht, txnGet, commitFails_getErr, hv,
      commitFails_commitErr]
    simp

/-- C14 with the tags 0, 1, 2 and `Commit` failing with a storage error: GET
"a" after SET "a" "1", and HGET "h" "f1" after HSET "h" "f1" "v1", return the
nil reply with no error, while SET "a" "2" returns the error of `Commit`. -/
theorem C14_commit_failure_dropped_by_reads_witness :
    HandleGet ⟨0, 1, 2⟩ (commitFails (.storage 1))
        (HandleSet ⟨0, 1, 2⟩ noFaults [] [97] [49]).2 [97]
      = (.ok .nil, (HandleSet ⟨0, 1, 2⟩ noFaults [] [97] [49]).2)
    ∧ HandleHashGet ⟨0, 1, 2⟩ (commitFails (.storage 1))
        (HandleHashSet ⟨0, 1, 2⟩ noFaults [] [104] [102, 49] [118, 49]).2 [104] [102, 49]
      = (.ok .nil, (HandleHashSet ⟨0, 1, 2⟩ noFaults [] [104] [102, 49] [118, 49]).2)
    ∧ HandleSet ⟨0, 1, 2⟩ (commitFails (.storage 1))
        (HandleSet ⟨0, 1, 2⟩ noFaults [] [97] [49]).2 [97] [50]
      = (.error (.storage 1), (HandleSet ⟨0, 1, 2⟩ noFaults [] [97] [49]).2) :=
  ⟨(C14_commit_failure_dropped_by_reads ⟨0, 1, 2⟩ (HandleSet ⟨0, 1, 2⟩ noFaults [] [97] [49]).2
      [97] [] [] ⟨(HandleSet ⟨0, 1, 2⟩ noFaults [] [97] [49]).2⟩ (.storage 1)
      (by decide)).1 (by decide),
    (C14_commit_failure_dropped_by_reads ⟨0, 1, 2⟩
      (HandleHashSet ⟨0, 1, 2⟩ noFaults [] [104] [102, 49] [118, 49]).2
      [104] [102, 49] [118, 49]
      ⟨(HandleHashSet ⟨0, 1, 2⟩ noFaults [] [104] [102, 49] [118, 49]).2⟩ (.storage 1)
      (by decide)).2 (by decide) (by decide),
    by decide⟩

/-! ## One step of HSET -/

theorem ParseInt_range (s : Bytes) (n : Int) (h : ParseInt s = .ok n) :
    -(2 ^ 63 : Int) ≤ n ∧ n < 2 ^ 63 := by
  unfold ParseInt at h
  split at h
  · cases h
  · rename_i c rest
    simp only at h
    split at h
    · cases h
    · split at h
      · cases h
      · rename_i un _
        split at h
        · cases h
        · rename_i h1
          split at h
          · cases h
          · rename_i h2
            simp only [Except.ok.injEq] at h
            rw [← h]
            by_cases hc : c = 45
            · simp only [hc, decide_True, Bool.not_true, Bool.false_and, Bool.true_and,
                decide_eq_true_eq, if_true] at h1 h2 ⊢
              omega
            · simp only [hc, decide_False, Bool.not_false, Bool.true_and, Bool.false_and,
                decide_eq_true_eq, if_false] at h1 h2 ⊢
              omega

theorem wrapInt64_succ (n : Int) (h1 : -(2 ^ 63 : Int) ≤ n) (h2 : n < 2 ^ 63 - 1) :
    wrapInt64 (n + 1) = n + 1 := by
  unfold wrapInt64
  omega

/-- C20. One step of HSET relative to the locator, every storage operation
succeeding.  (i) When `SeekPrefix` returns no iterator, `HandleHashSet` writes
the text "1" under the meta key and `v` under the field key and returns 1.
(ii) When it returns an iterator at a key whose last byte is HashMeta and
whose value parses as the integer `n` below `2^63 - 1`, the handler returns
`n + 1` when the field key is not stored and `n` otherwise, writes the decimal
text of that number under the meta key and `v` under the field key, and
every other key keeps what it had.  (iii) When the value does not parse, the
handler returns the error and the store is as it was. -/
theorem C20_hset_single_step (tg : Tags) (db : Store) (k f v : Bytes) :
    (SeekPrefix noFaults db k = .ok none →
      HandleHashSet tg noFaults db k f v
        = (.ok (.int 1), (db.set (EncodeHashMetaKey tg [] k) [49]).set
            (EncodeHashField tg [] k f) v))
    ∧ (∀ (it : Iterator) (n : Int), SeekPrefix noFaults db k = .ok (some it) →
        GetKeyType it.Key = some tg.HashMeta → ParseInt it.Value = .ok n → n < 2 ^ 63 - 1 →
        HandleHashSet tg noFaults db k f v
          = (.ok (.int (if db.get (EncodeHashField tg [] k f) = none then n + 1 else n)),
              (db.set (EncodeHashMetaKey tg [] k)
                (FormatInt (if db.get (EncodeHashField tg [] k f) = none then n + 1 else n))).set
                (EncodeHashField tg [] k f) v)
        ∧ (HandleHashSet tg noFaults db k f v).2.get (EncodeHashField tg [] k f) = some v
        ∧ (HandleHashSet tg noFaults db k f v).2.get (EncodeHashMetaKey tg [] k)
            = some (FormatInt (if db.get (EncodeHashField tg [] k f) = none then n + 1 else n))
        ∧ ∀ key, key ≠ EncodeHashMetaKey tg [] k → key ≠ EncodeHashField tg [] k f →
            (HandleHashSet tg noFaults db k f v).2.get key = db.get key)
    ∧ (∀ (it : Iterator) (e : Err), SeekPrefix noFaults db k = .ok (some it) →
        GetKeyType it.Key = some tg.HashMeta → ParseInt it.Value = .error e →
        HandleHashSet tg noFaults db k f v = (.error e, db)) := by
  refine ⟨?_, ?_, ?_⟩
  · intro hs
    rw [HandleHashSet_nil tg db k f v hs]
    rfl
  · intro it n hs ht hp hn
    have hr := ParseInt_range _ _ hp
    have heq : HandleHashSet tg noFaults db k f v
        = (.ok (.int (if db.get (EncodeHashField tg [] k f) = none then n + 1 else n)),
            (db.set (EncodeHashMetaKey tg [] k)
              (FormatInt (if db.get (EncodeHashField tg [] k f) = none then n + 1 else n))).set
              (EncodeHashField tg [] k f) v) := by
      simp only [HandleHashSet, noFaults_beginErr, hs, ht, hp, txnGet, noFaults_getErr, txnSet,
        noFaults_setErr, noFaults_commitErr]
      cases hg : db.get (EncodeHashField tg [] k f) with
      | none => simp [wrapInt64_succ n hr.1 hn]
      | some val => simp
    rw [heq]
    refine ⟨rfl, Store.get_set_self _ _ _, ?_, ?_⟩
    · rw [Store.get_set_ne _ _ _ _ (EncodeHashMetaKey_ne_field tg k f)]
      exact Store.get_set_self _ _ _
    · intro key h1 h2
      rw [Store.get_set_ne _ _ _ _ h2, Store.get_set_ne _ _ _ _ h1]
  · intro it e hs ht hp
    simp only [HandleHashSet, noFaults_beginErr, hs, ht, hp]
    simp

/-- C20 at the store left by HSET "h" "f1" "v1" on the empty store (tags 0, 1,
2): HSET of the new field "f2" returns 2 and writes "2" under the meta key. -/
theorem C20_hset_single_step_witness :
    HandleHashSet ⟨0, 1, 2⟩ noFaults
        (HandleHashSet ⟨0, 1, 2⟩ noFaults [] [104] [102, 49] [118, 49]).2 [104] [102, 50] [118, 50]
      = (.ok (.int 2),
          (Store.set (Store.set (HandleHashSet ⟨0, 1, 2⟩ noFaults [] [104] [102, 49] [118, 49]).2
            (EncodeHashMetaKey ⟨0, 1, 2⟩ [] [104]) [50])
            (EncodeHashField ⟨0, 1, 2⟩ [] [104] [102, 50]) [118, 50])) :=
  (((C20_hset_single_step ⟨0, 1, 2⟩
      (HandleHashSet ⟨0, 1, 2⟩ noFaults [] [104] [102, 49] [118, 49]).2 [104] [102, 50]
      [118, 50]).2.1
      ⟨(HandleHashSet ⟨0, 1, 2⟩ noFaults [] [104] [102, 49] [118, 49]).2⟩ 1
      (by decide) (by decide) (by decide) (by decide)).1).trans (by decide)


/-! ## DecodeBytes against the decoding the specification describes -/

theorem decodeLoop_group (fuel : Nat) (data g rest : Bytes) (c : Nat) (hg : g.length = 8) :
    decodeLoop (fuel + 1) data (g ++ c :: rest)
      = if c > 9 then .error (.invalidFlag (g ++ [c]))
        else if c < 9 then
          (if (g.drop c).any (fun v => v != 0) then .error (.invalidPadding (g ++ [c]))
           else .ok (rest, data ++ g.take c))
        else decodeLoop fuel (data ++ g) rest := by
  have h1 : ¬ ((g ++ c :: rest).length < 9) := by simp; omega
  have h2 : (g ++ c :: rest).take 9 = g ++ [c] := by
    rw [List.take_append_eq_append_take, List.take_of_length_le (by omega), hg]
    simp
  have h3 : (g ++ [c]).take 8 = g := by
    rw [List.take_append_of_le_length (by omega), List.take_of_length_le (by omega)]
  have h4 : (g ++ [c]).getD 8 0 = c := by
    rw [List.getD_append_right _ _ _ _ (by omega), hg]; rfl
  have h5 : (g ++ c :: rest).drop 9 = rest := by
    rw [List.drop_append_eq_append_drop, List.drop_of_length_le (by omega), hg]
    simp
  have h6 : g.take 8 = g := List.take_of_length_le (by omega)
  simp only [decodeLoop, rdbEscapeLength, show (9 - 1 : Nat) = 8 from rfl, h1, if_false, h2, h3,
    h4, h5, h6]

theorem decodeLoop_too_short (fuel : Nat) (data src : Bytes) (h : src.length < 9) :
    ∃ e, decodeLoop fuel data src = .error e := by
  cases fuel with
  | zero => exact ⟨_, rfl⟩
  | succ fuel => exact ⟨.insufficientBytes, by simp [decodeLoop, rdbEscapeLength, h]⟩

theorem decodeBySpec_too_short (src : Bytes) (h : src.length < 9) : decodeBySpec src = none := by
  rcases src with _ | ⟨b0, _ | ⟨b1, _ | ⟨b2, _ | ⟨b3, _ | ⟨b4, _ | ⟨b5, _ | ⟨b6, _ | ⟨b7,
    _ | ⟨c, rest⟩⟩⟩⟩⟩⟩⟩⟩⟩
  all_goals first
    | rfl
    | (simp only [List.length_cons] at h; omega)

theorem decodeBySpec_group (g rest : Bytes) (c : Nat) (hg : g.length = 8) :
    decodeBySpec (g ++ c :: rest)
      = if c = 9 then
          (match decodeBySpec rest with
           | none => none
           | some (left, data) => some (left, g ++ data))
        else if c > 9 then none
        else if (g.drop c).all (fun v => v == 0) then some (rest, g.take c)
        else none := by
  rcases g with _ | ⟨b0, _ | ⟨b1, _ | ⟨b2, _ | ⟨b3, _ | ⟨b4, _ | ⟨b5, _ | ⟨b6, _ | ⟨b7,
    _ | ⟨b8, g⟩⟩⟩⟩⟩⟩⟩⟩⟩
  all_goals first
    | (simp only [List.length_cons, List.length_nil] at hg; omega)
    | (simp only [List.cons_append, List.nil_append, decodeBySpec])

theorem exists_group (src : Bytes) (h : ¬ (src.length < 9)) :
    ∃ g c rest, g.length = 8 ∧ src = g ++ c :: rest := by
  cases hd : src.drop 8 with
  | nil =>
    have hl := congrArg List.length hd
    simp only [List.length_drop, List.length_nil] at hl
    omega
  | cons c rest =>
    refine ⟨src.take 8, c, rest, by simp; omega, ?_⟩
    rw [← hd, List.take_append_drop]

/-- The loop of `DecodeBytes`, given enough fuel, succeeds exactly when the
decoding of the specification does, with the same left buffer and the decoded
bytes appended to `data`. -/
theorem decodeLoop_eq_spec : ∀ (fuel : Nat) (data src : Bytes), src.length < fuel →
    (decodeLoop fuel data src).toOption
      = (decodeBySpec src).map (fun p => (p.1, data ++ p.2)) := by
  intro fuel
  induction fuel with
  | zero => intro _ _ h; omega
  | succ fuel ih =>
    intro data src h
    by_cases hs : src.length < 9
    · obtain ⟨e, he⟩ := decodeLoop_too_short (fuel + 1) data src hs
      rw [he, decodeBySpec_too_short src hs]
      rfl
    · obtain ⟨g, c, rest, hg, rfl⟩ := exists_group src hs
      have hr : rest.length < fuel := by
        simp only [List.length_append, List.length_cons] at h; omega
      rw [decodeLoop_group fuel data g rest c hg, decodeBySpec_group g rest c hg]
      by_cases h9 : c = 9
      · subst h9
        simp only [gt_iff_lt, Nat.lt_irrefl, if_false, if_true, ih _ _ hr]
        cases decodeBySpec rest with
        | none => rfl
        | some p => simp [List.append_assoc]
      · by_cases hgt : c > 9
        · simp only [hgt, h9, if_true, if_false]
          rfl
        · have hlt : c < 9 := by omega
          simp only [hgt, h9, hlt, if_true, if_false]
          by_cases hz : (g.drop c).all (fun v => v == 0) = true
          · have hany : (g.drop c).any (fun v => v != 0) = false := by
              rw [List.any_eq_false]
              intro v hv
              have := List.all_eq_true.1 hz v hv
              simpa using this
            simp only [hz, hany, if_true]
            rfl
          · have hany : (g.drop c).any (fun v => v != 0) = true := by
              cases ha : (g.drop c).any (fun v => v != 0) with
              | true => rfl
              | false =>
                exfalso
                apply hz
                rw [List.all_eq_true]
                intro v hv
                have := List.any_eq_false.1 ha v hv
                simpa using this
            simp only [hz, hany, if_true]
            rfl

/-- C15. `DecodeBytes` fails exactly on malformed input: it succeeds exactly
when the reading in nine-byte groups that the specification describes
succeeds, then with the same remaining buffer and the same decoded bytes, and
it returns an error exactly when that reading meets fewer than nine bytes, a
ninth byte above 9, or a padding byte that is not zero. -/
theorem C15_decode_fails_exactly_on_malformed (b : Bytes) :
    (DecodeBytes b).toOption = decodeBySpec b
    ∧ ((∃ e, DecodeBytes b = .error e) ↔ decodeBySpec b = none)
    ∧ (∀ left data, decodeBySpec b = some (left, data) → DecodeBytes b = .ok (left, data)) := by
  have h : (DecodeBytes b).toOption = decodeBySpec b := by
    unfold DecodeBytes
    rw [decodeLoop_eq_spec _ [] b (by omega)]
    cases decodeBySpec b with
    | none => rfl
    | some p => simp
  refine ⟨h, ?_, ?_⟩
  · rw [← h]
    cases DecodeBytes b with
    | error e => simp [Except.toOption]
    | ok p => simp [Except.toOption]
  · intro left data hd
    rw [← h] at hd
    cases hb : DecodeBytes b with
    | error e => rw [hb] at hd; simp [Except.toOption] at hd
    | ok p =>
      rw [hb] at hd
      simp only [Except.toOption, Option.some.injEq] at hd
      rw [hd]


/-! ## The integer codec -/

theorem xor_signMask_low (x : Nat) (h : x < 2 ^ 63) : x ^^^ signMask = 2 ^ 63 + x := by
  have hs : signMask = 2 ^ 63 := by decide
  rw [hs]
  apply Nat.eq_of_testBit_eq
  intro i
  rw [Nat.testBit_xor, Nat.testBit_two_pow]
  rcases Nat.lt_trichotomy i 63 with hi | hi | hi
  · rw [Nat.testBit_two_pow_add_gt hi]
    have : ¬ (63 = i) := by omega
    simp [this]
  · subst hi
    rw [Nat.testBit_two_pow_add_eq, Nat.testBit_lt_two_pow h]
    simp
  · have h1 : x < 2 ^ i := Nat.lt_of_lt_of_le h (Nat.pow_le_pow_right (by omega) (by omega))
    have h2 : 2 ^ 63 + x < 2 ^ i := by
      have h64 : (2 : Nat) ^ 64 ≤ 2 ^ i := Nat.pow_le_pow_right (by omega) (by omega)
      have : (2 : Nat) ^ 64 = 2 ^ 63 + 2 ^ 63 := by norm_num
      omega
    rw [Nat.testBit_lt_two_pow h1, Nat.testBit_lt_two_pow h2]
    have : ¬ (63 = i) := by omega
    simp [this]

theorem xor_signMask_high (x : Nat) (h : x < 2 ^ 63) : (2 ^ 63 + x) ^^^ signMask = x := by
  rw [← xor_signMask_low x h, Nat.xor_assoc, Nat.xor_self, Nat.xor_zero]

theorem or_shiftLeft (acc a k : Nat) (h : acc < 2 ^ k) : acc ||| (a <<< k) = a * 2 ^ k + acc := by
  rw [Nat.or_comm, Nat.shiftLeft_eq, Nat.mul_comm a, Nat.mul_add_lt_is_or h]

theorem Uint64_eq (a0 a1 a2 a3 a4 a5 a6 a7 : Nat) (h1 : a1 < 256)
    (h2 : a2 < 256) (h3 : a3 < 256) (h4 : a4 < 256) (h5 : a5 < 256) (h6 : a6 < 256)
    (h7 : a7 < 256) :
    Uint64 [a0, a1, a2, a3, a4, a5, a6, a7]
      = a0 * 2 ^ 56 + a1 * 2 ^ 48 + a2 * 2 ^ 40 + a3 * 2 ^ 32 + a4 * 2 ^ 24 + a5 * 2 ^ 16
          + a6 * 2 ^ 8 + a7 := by
  simp only [Uint64, List.getD_cons_succ, List.getD_cons_zero]
  rw [or_shiftLeft a7 a6 8 (by norm_num; omega)]
  rw [or_shiftLeft _ a5 16 (by norm_num; omega)]
  rw [or_shiftLeft _ a4 24 (by norm_num; omega)]
  rw [or_shiftLeft _ a3 32 (by norm_num; omega)]
  rw [or_shiftLeft _ a2 40 (by norm_num; omega)]
  rw [or_shiftLeft _ a1 48 (by norm_num; omega)]
  rw [or_shiftLeft _ a0 56 (by norm_num; omega)]
  omega

theorem Uint64_PutUint64 (u : Nat) (h : u < 2 ^ 64) : Uint64 (PutUint64 u) = u := by
  unfold PutUint64
  rw [Uint64_eq _ _ _ _ _ _ _ _ (Nat.mod_lt _ (by omega))
    (Nat.mod_lt _ (by omega)) (Nat.mod_lt _ (by omega)) (Nat.mod_lt _ (by omega))
    (Nat.mod_lt _ (by omega)) (Nat.mod_lt _ (by omega)) (Nat.mod_lt _ (by omega))]
  simp only [Nat.shiftRight_eq_div_pow]
  norm_num at h ⊢
  omega

theorem bytesLt_eight (a0 a1 a2 a3 a4 a5 a6 a7 b0 b1 b2 b3 b4 b5 b6 b7 : Nat)
    (h1 : a1 < 256) (h2 : a2 < 256) (h3 : a3 < 256) (h4 : a4 < 256)
    (h5 : a5 < 256) (h6 : a6 < 256) (h7 : a7 < 256)
    (g1 : b1 < 256) (g2 : b2 < 256) (g3 : b3 < 256) (g4 : b4 < 256)
    (g5 : b5 < 256) (g6 : b6 < 256) (g7 : b7 < 256) :
    bytesLt [a0, a1, a2, a3, a4, a5, a6, a7] [b0, b1, b2, b3, b4, b5, b6, b7] = true
      ↔ a0 * 72057594037927936 + a1 * 281474976710656 + a2 * 1099511627776 + a3 * 4294967296
          + a4 * 16777216 + a5 * 65536 + a6 * 256 + a7
        < b0 * 72057594037927936 + b1 * 281474976710656 + b2 * 1099511627776 + b3 * 4294967296
          + b4 * 16777216 + b5 * 65536 + b6 * 256 + b7 := by
  simp only [bytesLt, Bool.or_eq_true, decide_eq_true_eq, Bool.and_eq_true, beq_iff_eq,
    Bool.or_false, Bool.and_false, or_false]
  omega

theorem PutUint64_sum (u : Nat) (h : u < 18446744073709551616) :
    u = (u >>> 56) % 256 * 72057594037927936 + (u >>> 48) % 256 * 281474976710656
      + (u >>> 40) % 256 * 1099511627776 + (u >>> 32) % 256 * 4294967296
      + (u >>> 24) % 256 * 16777216 + (u >>> 16) % 256 * 65536 + (u >>> 8) % 256 * 256
      + u % 256 := by
  simp only [Nat.shiftRight_eq_div_pow]
  norm_num
  omega

/-- The big-endian bytes of two 64-bit values compare as the values do. -/
theorem PutUint64_lt (u v : Nat) (hu : u < 18446744073709551616)
    (hv : v < 18446744073709551616) :
    bytesLt (PutUint64 u) (PutUint64 v) = true ↔ u < v := by
  have eu := PutUint64_sum u hu
  have ev := PutUint64_sum v hv
  unfold PutUint64
  rw [bytesLt_eight _ _ _ _ _ _ _ _ _ _ _ _ _ _ _ _
    (Nat.mod_lt _ (by omega)) (Nat.mod_lt _ (by omega)) (Nat.mod_lt _ (by omega))
    (Nat.mod_lt _ (by omega)) (Nat.mod_lt _ (by omega)) (Nat.mod_lt _ (by omega))
    (Nat.mod_lt _ (by omega)) (Nat.mod_lt _ (by omega)) (Nat.mod_lt _ (by omega))
    (Nat.mod_lt _ (by omega)) (Nat.mod_lt _ (by omega)) (Nat.mod_lt _ (by omega))
    (Nat.mod_lt _ (by omega)) (Nat.mod_lt _ (by omega))]
  constructor
  · intro h
    rw [eu, ev]
    exact h
  · intro h
    rw [eu, ev] at h
    exact h

/-- The unsigned value `EncodeInt64` writes for `i`: `i + 2^63`. -/
theorem toUint64_xor (i : Int) (h1 : -(2 ^ 63 : Int) ≤ i) (h2 : i < 2 ^ 63) :
    toUint64 i ^^^ signMask = (i + 2 ^ 63).toNat := by
  unfold toUint64
  by_cases hi : 0 ≤ i
  · have e : (i % 2 ^ 64).toNat = i.toNat := by omega
    rw [e, xor_signMask_low _ (by omega)]
    omega
  · obtain ⟨x, hx⟩ : ∃ x : Nat, (x : Int) = i + 2 ^ 63 := ⟨(i + 2 ^ 63).toNat, by omega⟩
    have e : (i % 2 ^ 64).toNat = 2 ^ 63 + x := by omega
    rw [e, xor_signMask_high x (by omega)]
    omega


theorem EncodeInt64_eq (i : Int) (h1 : -(2 ^ 63 : Int) ≤ i) (h2 : i < 2 ^ 63) :
    EncodeInt64 [] i = PutUint64 (i + 2 ^ 63).toNat := by
  simp only [EncodeInt64, List.nil_append, toUint64_xor i h1 h2]

theorem toInt64_xor (i : Int) (h1 : -(2 ^ 63 : Int) ≤ i) (h2 : i < 2 ^ 63) :
    toInt64 ((i + 2 ^ 63).toNat ^^^ signMask) = i := by
  by_cases hi : 0 ≤ i
  · have e : (i + 2 ^ 63).toNat = 2 ^ 63 + i.toNat := by omega
    rw [e, xor_signMask_high _ (by omega)]
    unfold toInt64
    rw [if_pos (by omega)]
    omega
  · rw [xor_signMask_low _ (by omega)]
    unfold toInt64
    rw [if_neg (by omega)]
    omega

/-- C16. Integer round trip: for every signed 64-bit integer `i`,
`EncodeInt64(nil, i)` has exactly 8 bytes and `DecodeInt64` of it succeeds with
the empty left buffer and the value `i`; and `DecodeInt64` returns an error
for every buffer shorter than 8 bytes. -/
theorem C16_int64_round_trip (i : Int) (h1 : -(2 ^ 63 : Int) ≤ i) (h2 : i < 2 ^ 63) :
    (EncodeInt64 [] i).length = 8
    ∧ DecodeInt64 (EncodeInt64 [] i) = .ok ([], i)
    ∧ ∀ b : Bytes, b.length < 8 → DecodeInt64 b = .error .corruptedData := by
  have hv : (i + 2 ^ 63).toNat < 2 ^ 64 := by omega
  have hlen : (PutUint64 (i + 2 ^ 63).toNat).length = 8 := rfl
  refine ⟨?_, ?_, ?_⟩
  · rw [EncodeInt64_eq i h1 h2]; exact hlen
  · rw [EncodeInt64_eq i h1 h2]
    unfold DecodeInt64
    rw [if_neg (by rw [hlen]; omega)]
    have ht : (PutUint64 (i + 2 ^ 63).toNat).take 8 = PutUint64 (i + 2 ^ 63).toNat :=
      List.take_of_length_le (by rw [hlen])
    have hd : (PutUint64 (i + 2 ^ 63).toNat).drop 8 = [] :=
      List.drop_of_length_le (by rw [hlen])
    simp only [ht, hd, Uint64_PutUint64 _ hv, toInt64_xor i h1 h2]
  · intro b hb
    unfold DecodeInt64
    rw [if_pos hb]

/-- C16 at the least signed 64-bit integer. -/
theorem C16_int64_round_trip_witness :
    (EncodeInt64 [] (-9223372036854775808)).length = 8
    ∧ DecodeInt64 (EncodeInt64 [] (-9223372036854775808)) = .ok ([], -9223372036854775808)
    ∧ ∀ b : Bytes, b.length < 8 → DecodeInt64 b = .error .corruptedData :=
  C16_int64_round_trip (-9223372036854775808) (by decide) (by decide)

/-- C17. Integer order preservation: for signed 64-bit integers `i` and `j`,
`i < j` exactly when `EncodeInt64(nil, i)` is below `EncodeInt64(nil, j)` in
lexicographic order of unsigned bytes. -/
theorem C17_int64_order (i j : Int) (hi1 : -(2 ^ 63 : Int) ≤ i) (hi2 : i < 2 ^ 63)
    (hj1 : -(2 ^ 63 : Int) ≤ j) (hj2 : j < 2 ^ 63) :
    i < j ↔ bytesLt (EncodeInt64 [] i) (EncodeInt64 [] j) = true := by
  rw [EncodeInt64_eq i hi1 hi2, EncodeInt64_eq j hj1 hj2,
    PutUint64_lt _ _ (by omega) (by omega)]
  omega

/-- C17 at the least and the greatest signed 64-bit integer. -/
theorem C17_int64_order_witness :
    ((-9223372036854775808 : Int) < 9223372036854775807
      ↔ bytesLt (EncodeInt64 [] (-9223372036854775808)) (EncodeInt64 [] 9223372036854775807)
          = true)
    ∧ bytesLt (EncodeInt64 [] (-9223372036854775808)) (EncodeInt64 [] 9223372036854775807)
        = true :=
  ⟨C17_int64_order (-9223372036854775808) 9223372036854775807 (by decide) (by decide)
      (by decide) (by decide),
    by decide⟩


/-! ## The dispatcher -/

theorem SeekPrefix_noFaults_ok (db : Store) (key : Bytes) :
    ∃ o, SeekPrefix noFaults db key = .ok o := by
  simp only [SeekPrefix, txnSeek, noFaults_seekErr]
  split
  · exact ⟨_, rfl⟩
  · split
    · exact ⟨_, rfl⟩
    · exact ⟨_, rfl⟩

theorem HandleSet_no_panic (tg : Tags) (db : Store) (key value : Bytes) :
    (HandleSet tg noFaults db key value).1 ≠ .error .indexOutOfRange := by
  obtain ⟨o, ho⟩ := SeekPrefix_noFaults_ok db key
  cases o with
  | none => rw [HandleSet_nil tg db key value ho]; simp
  | some it =>
    obtain ⟨tp, htp⟩ := SeekPrefix_some_key noFaults db key it ho
    simp only [HandleSet, noFaults_beginErr, ho, htp, txnSet, noFaults_setErr,
      noFaults_commitErr]
    by_cases ht : tp = tg.String <;> simp [ht]

theorem HandleGet_no_panic (tg : Tags) (db : Store) (key : Bytes) :
    (HandleGet tg noFaults db key).1 ≠ .error .indexOutOfRange := by
  obtain ⟨o, ho⟩ := SeekPrefix_noFaults_ok db key
  cases o with
  | none => rw [HandleGet_nil tg db key ho]; simp
  | some it =>
    obtain ⟨tp, htp⟩ := SeekPrefix_some_key noFaults db key it ho
    simp only [HandleGet, noFaults_beginErr, ho, htp, noFaults_commitErr]
    by_cases ht : tp = tg.String <;> simp [ht]

theorem HandleDelete_no_panic (db : Store) (key : Bytes) :
    (HandleDelete noFaults db key).1 ≠ .error .indexOutOfRange := by
  simp only [HandleDelete, noFaults_beginErr, txnSeek, noFaults_seekErr, collectKeys_eq,
    deleteKeys_eq, noFaults_commitErr]
  simp

theorem ParseInt_error (s : Bytes) (e : Err) (h : ParseInt s = .error e) : e = .parseInt := by
  unfold ParseInt at h
  split at h
  · cases h; rfl
  · simp only at h
    split at h
    · cases h; rfl
    · split at h
      · cases h; rfl
      · split at h
        · cases h; rfl
        · split at h
          · cases h; rfl
          · cases h

theorem HandleHashSet_no_panic (tg : Tags) (db : Store) (key field value : Bytes) :
    (HandleHashSet tg noFaults db key field value).1 ≠ .error .indexOutOfRange := by
  obtain ⟨o, ho⟩ := SeekPrefix_noFaults_ok db key
  cases o with
  | none => rw [HandleHashSet_nil tg db key field value ho]; simp
  | some it =>
    obtain ⟨tp, htp⟩ := SeekPrefix_some_key noFaults db key it ho
    simp only [HandleHashSet, noFaults_beginErr, ho, htp, txnGet, noFaults_getErr, txnSet,
      noFaults_setErr, noFaults_commitErr]
    by_cases ht : tp = tg.HashMeta
    · simp only [ht, ne_eq, not_true_eq_false, if_false]
      cases hp : ParseInt it.Value with
      | error e =>
        have := ParseInt_error _ _ hp
        subst this
        simp
      | ok n =>
        cases hg : db.get (EncodeHashField tg [] key field) with
        | none => simp
        | some v => simp
    · simp [ht]

theorem HandleHashGet_no_panic (tg : Tags) (db : Store) (key field : Bytes) :
    (HandleHashGet tg noFaults db key field).1 ≠ .error .indexOutOfRange := by
  obtain ⟨o, ho⟩ := SeekPrefix_noFaults_ok db key
  cases o with
  | none => simp [HandleHashGet, ho]
  | some it =>
    obtain ⟨tp, htp⟩ := SeekPrefix_some_key noFaults db key it ho
    simp only [HandleHashGet, noFaults_beginErr, ho, htp, txnGet, noFaults_getErr,
      noFaults_commitErr]
    by_cases ht : tp = tg.HashMeta
    · simp only [ht, ne_eq, not_true_eq_false, if_false]
      cases hg : db.get (EncodeHashField tg [] key field) with
      | none => simp
      | some v => simp
    · simp [ht]

/-- C18, as the program has it: `handleRequest` does not check the number of
arguments.  For every command name, in any letter case, and every argument
list with at least as many arguments as the command reads (SET 2, GET 1,
DEL 1, HSET 3, HGET 2), it returns what the handler returns on the first
arguments, and with every storage operation succeeding this is a reply or an
error value, never the index-out-of-range panic; for any other name it
returns the "not supported" error whatever the arguments. -/
theorem C18_handleRequest_enough_args (tg : Tags) (fl : Faults) (db : Store) (cmd : Bytes)
    (args : List Bytes) (h : neededArgs (ToLower cmd) ≤ args.length) :
    (ToLower cmd = [115, 101, 116] → ∃ a0 a1 rest, args = a0 :: a1 :: rest
        ∧ handleRequest tg fl db cmd args = HandleSet tg fl db a0 a1)
    ∧ (ToLower cmd = [103, 101, 116] → ∃ a0 rest, args = a0 :: rest
        ∧ handleRequest tg fl db cmd args = HandleGet tg fl db a0)
    ∧ (ToLower cmd = [100, 101, 108] → ∃ a0 rest, args = a0 :: rest
        ∧ handleRequest tg fl db cmd args = HandleDelete fl db a0)
    ∧ (ToLower cmd = [104, 115, 101, 116] → ∃ a0 a1 a2 rest, args = a0 :: a1 :: a2 :: rest
        ∧ handleRequest tg fl db cmd args = HandleHashSet tg fl db a0 a1 a2)
    ∧ (ToLower cmd = [104, 103, 101, 116] → ∃ a0 a1 rest, args = a0 :: a1 :: rest
        ∧ handleRequest tg fl db cmd args = HandleHashGet tg fl db a0 a1)
    ∧ (ToLower cmd ≠ [115, 101, 116] → ToLower cmd ≠ [103, 101, 116] →
        ToLower cmd ≠ [100, 101, 108] → ToLower cmd ≠ [104, 115, 101, 116] →
        ToLower cmd ≠ [104, 103, 101, 116] →
        handleRequest tg fl db cmd args = (.error (.notSupported cmd), db))
    ∧ (handleRequest tg noFaults db cmd args).1 ≠ .error .indexOutOfRange := by
  refine ⟨?_, ?_, ?_, ?_, ?_, ?_, ?_⟩
  · intro hc
    rw [hc] at h
    rcases args with _ | ⟨a0, _ | ⟨a1, rest⟩⟩
    · simp [neededArgs] at h
    · simp [neededArgs] at h
    · exact ⟨a0, a1, rest, rfl, by simp [handleRequest, hc]⟩
  · intro hc
    rw [hc] at h
    rcases args with _ | ⟨a0, rest⟩
    · simp [neededArgs] at h
    · exact ⟨a0, rest, rfl, by simp [handleRequest, hc]⟩
  · intro hc
    rw [hc] at h
    rcases args with _ | ⟨a0, rest⟩
    · simp [neededArgs] at h
    · exact ⟨a0, rest, rfl, by simp [handleRequest, hc]⟩
  · intro hc
    rw [hc] at h
    rcases args with _ | ⟨a0, _ | ⟨a1, _ | ⟨a2, rest⟩⟩⟩
    · simp [neededArgs] at h
    · simp [neededArgs] at h
    · simp [neededArgs] at h
    · exact ⟨a0, a1, a2, rest, rfl, by simp [handleRequest, hc]⟩
  · intro hc
    rw [hc] at h
    rcases args with _ | ⟨a0, _ | ⟨a1, rest⟩⟩
    · simp [neededArgs] at h
    · simp [neededArgs] at h
    · exact ⟨a0, a1, rest, rfl, by simp [handleRequest, hc]⟩
  · intro h1 h2 h3 h4 h5
    simp [handleRequest, h1, h2, h3, h4, h5]
  · by_cases h1 : ToLower cmd = [115, 101, 116]
    · rw [h1] at h
      rcases args with _ | ⟨a0, _ | ⟨a1, rest⟩⟩
      · simp [neededArgs] at h
      · simp [neededArgs] at h
      · simp only [handleRequest, h1, if_true, List.getElem?_cons_zero, List.getElem?_cons_succ]
        exact HandleSet_no_panic tg db a0 a1
    · by_cases h2 : ToLower cmd = [103, 101, 116]
      · rw [h2] at h
        rcases args with _ | ⟨a0, rest⟩
        · simp [neededArgs] at h
        · simp only [handleRequest, h2, List.getElem?_cons_zero]
          exact HandleGet_no_panic tg db a0
      · by_cases h3 : ToLower cmd = [100, 101, 108]
        · rw [h3] at h
          rcases args with _ | ⟨a0, rest⟩
          · simp [neededArgs] at h
          · simp only [handleRequest, h3, List.getElem?_cons_zero]
            exact HandleDelete_no_panic db a0
        · by_cases h4 : ToLower cmd = [104, 115, 101, 116]
          · rw [h4] at h
            rcases args with _ | ⟨a0, _ | ⟨a1, _ | ⟨a2, rest⟩⟩⟩
            · simp [neededArgs] at h
            · simp [neededArgs] at h
            · simp [neededArgs] at h
            · simp only [handleRequest, h4, List.getElem?_cons_zero, List.getElem?_cons_succ]
              exact HandleHashSet_no_panic tg db a0 a1 a2
          · by_cases h5 : ToLower cmd = [104, 103, 101, 116]
            · rw [h5] at h
              rcases args with _ | ⟨a0, _ | ⟨a1, rest⟩⟩
              · simp [neededArgs] at h
              · simp [neededArgs] at h
              · simp only [handleRequest, h5, List.getElem?_cons_zero, List.getElem?_cons_succ]
                exact HandleHashGet_no_panic tg db a0 a1
            · simp [handleRequest, h1, h2, h3, h4, h5]

/-- C18 at the request "Set" "a" "1" on the empty store (tags 0, 1, 2). -/
theorem C18_handleRequest_enough_args_witness :
    neededArgs (ToLower [83, 101, 116]) ≤ List.length [[97], [49]]
    ∧ (handleRequest ⟨0, 1, 2⟩ noFaults [] [83, 101, 116] [[97], [49]]).1
        ≠ .error .indexOutOfRange :=
  ⟨by decide,
    (C18_handleRequest_enough_args ⟨0, 1, 2⟩ noFaults [] [83, 101, 116] [[97], [49]]
      (by decide)).2.2.2.2.2.2⟩

/-- C18 as stated fails: GET with no argument, SET with one argument and HSET
with two arguments index `args` out of bounds, which is a panic and not an
error value. -/
theorem C18_handleRequest_short_args_panic :
    handleRequest ⟨0, 1, 2⟩ noFaults [] [71, 69, 84] [] = (.error .indexOutOfRange, [])
    ∧ handleRequest ⟨0, 1, 2⟩ noFaults [] [115, 101, 116] [[97]] = (.error .indexOutOfRange, [])
    ∧ handleRequest ⟨0, 1, 2⟩ noFaults [] [72, 83, 69, 84] [[104], [102]]
        = (.error .indexOutOfRange, []) := by decide

end RedisTikv
